import Mathlib

/-!
Verification development for the pedigree reconstruction core
(`constructor/pedigree.py`, `constructor/util.py` and the parts of
`constructor/graph.py` the claims reference).

Modelling conventions (shallow embedding):

* A Python `Node` object graph is represented as an arena: an association
  list `State = List (Id × NodeR)` from stable string ids to node records,
  exactly as the design notes of the spec recommend.  Python object
  identity (`is`, and the default `==` of `Node`) becomes id equality.
  The `parents` tuple (empty `()` or `(mother, father)`) becomes
  `Option (Id × Id)`; `children` stays a list of ids.
  The fields `age`, `partners` and `siblings` are omitted: no code path
  used by the claims reads or writes them (they stay at their initial
  values throughout the pipeline).
* Reads of a missing id (`node_map.get(...)` returning `None`, or indexing
  an empty parents tuple), which raise in Python, are modelled by a default
  node; theorems carry hypotheses ruling these situations out.
* `Node.search_descendants` recurses without a visited set and terminates
  in Python only on acyclic graphs; it is embedded with an explicit fuel of
  `s.length + 1`, which coincides with the Python behaviour on acyclic
  well-formed states (a simple path visits each key at most once).
* Mutation is threaded explicitly: each `@contextmanager` transaction
  returns the yielded boolean, the state at the yield point, and, for the
  committed path that has rollback code after the `yield`, the saved
  values the rollback code uses.
-/

namespace Pedigree

abbrev Id := String

/-- One `Node` record of `pedigree.py` (identity-relevant fields). -/
@[ext] structure NodeR where
  female   : Bool
  mtDna    : Option String
  yChrom   : Option String
  occupied : Bool
  original : Bool
  parents  : Option (Id × Id)
  children : List Id
  deriving Repr, DecidableEq

/-- Default record used for reads of ids absent from the arena
(such reads raise in Python; theorems exclude them by hypothesis). -/
def dfltNode : NodeR :=
  { female := false, mtDna := none, yChrom := none, occupied := false
  , original := false, parents := none, children := [] }

/-- The arena of nodes: association list from id to record.  The entry
order doubles as the Python node-list order where one is needed. -/
abbrev State := List (Id × NodeR)

/-- Read a node from the arena. -/
def get (s : State) (i : Id) : NodeR := (List.lookup i s).getD dfltNode

/-- Point update of the arena (updates every entry with the given key;
keys are unique in well-formed states). -/
def upd (s : State) (i : Id) (f : NodeR → NodeR) : State :=
  s.map (fun p => if p.1 = i then (p.1, f p.2) else p)

/-- Keys of the arena. -/
def keys (s : State) : List Id := s.map Prod.fst

/-- Mother and father of `i` as written in `child.parents[0]` /
`child.parents[1]` (defaulting like `get`). -/
def pparents (s : State) (i : Id) : Id × Id := ((get s i).parents).getD ("", "")

theorem lookup_cons_hit (k : Id) (n : NodeR) (t : State) :
    List.lookup k ((k, n) :: t) = some n := by
  simp [List.lookup]

theorem lookup_cons_miss {j k : Id} (n : NodeR) (t : State) (h : j ≠ k) :
    List.lookup j ((k, n) :: t) = List.lookup j t := by
  have hb : (j == k) = false := by
    simpa using h
  simp [List.lookup, hb]

@[simp] theorem keys_upd (s : State) (i : Id) (f : NodeR → NodeR) :
    keys (upd s i f) = keys s := by
  unfold keys upd
  rw [List.map_map]
  apply List.map_congr_left
  intro p _
  by_cases h : p.1 = i <;> simp [h]

theorem lookup_upd (s : State) (i j : Id) (f : NodeR → NodeR) :
    List.lookup j (upd s i f) =
      (List.lookup j s).map (fun n => if j = i then f n else n) := by
  induction s with
  | nil => simp [upd]
  | cons e t ih =>
    obtain ⟨k, n⟩ := e
    simp only [upd, List.map_cons]
    by_cases he : k = i
    · subst he
      simp only [if_pos rfl, eq_self_iff_true, if_true]
      by_cases hj : j = k
      · subst hj
        rw [lookup_cons_hit, lookup_cons_hit]
        simp
      · rw [lookup_cons_miss _ _ hj, lookup_cons_miss _ _ hj]
        simpa [upd] using ih
    · simp only [if_neg he]
      by_cases hj : j = k
      · subst hj
        rw [lookup_cons_hit, lookup_cons_hit]
        simp [he]
      · rw [lookup_cons_miss _ _ hj, lookup_cons_miss _ _ hj]
        simpa [upd] using ih

theorem get_upd_other (s : State) (i j : Id) (f : NodeR → NodeR) (h : j ≠ i) :
    get (upd s i f) j = get s j := by
  simp only [get, lookup_upd, if_neg h]
  cases List.lookup j s <;> simp [h]

theorem lookup_isSome_of_mem {s : State} {i : Id} (h : i ∈ keys s) :
    ∃ n, List.lookup i s = some n := by
  induction s with
  | nil => simp [keys] at h
  | cons e t ih =>
    obtain ⟨k, n⟩ := e
    by_cases he : i = k
    · subst he
      exact ⟨n, lookup_cons_hit _ _ _⟩
    · have h' : i ∈ keys t := by
        simp [keys] at h
        rcases h with h | h
        · exact absurd h he
        · simpa [keys] using h
      rcases ih h' with ⟨m, hm⟩
      exact ⟨m, by rw [lookup_cons_miss _ _ he]; exact hm⟩

theorem get_upd_mem (s : State) (i : Id) (f : NodeR → NodeR)
    (h : i ∈ keys s) : get (upd s i f) i = f (get s i) := by
  rcases lookup_isSome_of_mem h with ⟨n, hn⟩
  simp [get, lookup_upd, hn]

theorem mem_keys_of_lookup {s : State} {i : Id} {n : NodeR}
    (h : List.lookup i s = some n) : i ∈ keys s := by
  induction s with
  | nil => simp [List.lookup] at h
  | cons e t ih =>
    obtain ⟨k, m⟩ := e
    by_cases he : i = k
    · simp [keys, he]
    · rw [lookup_cons_miss _ _ he] at h
      simp [keys]
      exact Or.inr (by simpa [keys] using ih h)

theorem get_eq_dflt_of_not_mem {s : State} {i : Id} (h : i ∉ keys s) :
    get s i = dfltNode := by
  unfold get
  cases hl : List.lookup i s with
  | none => simp
  | some n => exact absurd (mem_keys_of_lookup hl) h

/-- Arena extensionality: two arenas with the same (duplicate-free) key
sequence and equal reads are equal. -/
theorem state_ext {s t : State} (hk : keys s = keys t)
    (hnd : (keys s).Nodup) (h : ∀ i, List.lookup i s = List.lookup i t) :
    s = t := by
  induction s generalizing t with
  | nil => cases t with
    | nil => rfl
    | cons e t' => simp [keys] at hk
  | cons e s' ih =>
    cases t with
    | nil => simp [keys] at hk
    | cons e' t' =>
      obtain ⟨k, n⟩ := e
      obtain ⟨k', n'⟩ := e'
      simp only [keys, List.map_cons, List.cons.injEq] at hk
      obtain ⟨hk1, hk2⟩ := hk
      subst hk1
      have hval : n = n' := by
        have := h k
        rw [lookup_cons_hit, lookup_cons_hit] at this
        exact Option.some.inj this
      subst hval
      have hnd' : (keys s').Nodup ∧ k ∉ keys s' := by
        simp only [keys, List.map_cons, List.nodup_cons] at hnd
        exact ⟨hnd.2, hnd.1⟩
      have htail : ∀ i, List.lookup i s' = List.lookup i t' := by
        intro i
        by_cases hi : i = k
        · subst hi
          have h1 : List.lookup i s' = none := by
            cases hl : List.lookup i s' with
            | none => rfl
            | some m => exact absurd (mem_keys_of_lookup hl) hnd'.2
          have h2 : List.lookup i t' = none := by
            cases hl : List.lookup i t' with
            | none => rfl
            | some m =>
              have hmem : i ∈ keys t' := mem_keys_of_lookup hl
              rw [show keys t' = List.map Prod.fst t' from rfl, ← hk2] at hmem
              exact absurd hmem hnd'.2
          rw [h1, h2]
        · have := h i
          rwa [lookup_cons_miss _ _ hi, lookup_cons_miss _ _ hi] at this
      have := ih hk2 hnd'.1 htail
      rw [this]

/-! ### `Node.search_descendants` and the parent→child edge relation -/

/-- `Node.search_descendants(self, nodes)`: does some strict descendant of
`n` (via `children` edges) belong to `ts`?  Python recurses without a
visited set and terminates only on acyclic graphs; the fuel
`s.length + 1` used below reproduces its behaviour on acyclic well-formed
states, where a simple path visits each key at most once. -/
def searchDesc (s : State) : Nat → Id → List Id → Bool
  | 0, _, _ => false
  | fuel + 1, n, ts =>
    (get s n).children.any (fun c => c ∈ ts || searchDesc s fuel c ts)

/-- Fuel used by the transactions when they call `searchDesc`. -/
def descFuel (s : State) : Nat := s.length + 1

/-- The parent→child edge relation of the arena. -/
def edge (s : State) (n c : Id) : Prop := c ∈ (get s n).children

instance (s : State) (n c : Id) : Decidable (edge s n c) := by
  unfold edge; infer_instance

/-- `c` is a strict descendant of `n` (one or more `children` edges). -/
def SReach (s : State) (n c : Id) : Prop :=
  ∃ m, edge s n m ∧ Relation.ReflTransGen (edge s) m c

/-- The parent→child relation has no directed cycle. -/
def Acyclic (s : State) : Prop := ∀ n, ¬ SReach s n n

/-! ### The `_assign_parental` transaction (`pedigree.py`) -/

/-- The rewritten parents tuple `(parent, child.parents[1])` (female case)
or `(child.parents[0], parent)` (male case). -/
def slotted (fem : Bool) (pid : Id) (pr : Option (Id × Id)) : Option (Id × Id) :=
  if fem then some (pid, (pr.getD ("", "")).2)
  else some ((pr.getD ("", "")).1, pid)

/-- `child.parents = (parent, child.parents[1])` when the incoming parent
is female, and symmetrically when male (reads the untouched slot from the
current record). -/
def setSlot (fem : Bool) (pid : Id) (n : NodeR) : NodeR :=
  { n with parents := slotted fem pid n.parents }

/-- The re-parent loop of `_assign_parental`:
`for child in to_replace.children: child.parents = ...; parent.children.append(child)`. -/
def reparentLoop (p : Id) (fem : Bool) (L : List Id) (s : State) : State :=
  L.foldl (fun st ch =>
    upd (upd st ch (setSlot fem p)) p
      (fun n => { n with children := n.children ++ [ch] })) s

/-- `if child.mt_dna is None and parent.female: child.mt_dna = parent.mt_dna`
(where `child` is the shadowed loop variable, see `assignParental`). -/
def parentalMarkersMt (s1 : State) (sh p : Id) : State :=
  if (get s1 sh).mtDna = none ∧ (get s1 p).female
  then upd s1 sh (fun n => { n with mtDna := (get s1 p).mtDna })
  else s1

/-- The marker-propagation block of `_assign_parental`
(`if child.mt_dna is None and parent.female: ...` and the symmetric
paternal case).  Because of the shadowed loop variable, `sh` is the last
child of the replaced parent, not the argument of the call. -/
def parentalMarkers (s1 : State) (sh p : Id) : State :=
  if ¬ (get (parentalMarkersMt s1 sh p) sh).female ∧
     (get (parentalMarkersMt s1 sh p) sh).yChrom = none ∧
     ¬ (get (parentalMarkersMt s1 sh p) p).female
  then upd (parentalMarkersMt s1 sh p) sh
    (fun n => { n with yChrom := (get (parentalMarkersMt s1 sh p) p).yChrom })
  else parentalMarkersMt s1 sh p

/-- Saved values used by the rollback code (after the `yield True`)
of `_assign_parental`. -/
structure PRb where
  shadow    : Id              -- the (shadowed) loop variable `child` after the loops
  origMt    : Option String
  origY     : Option String
  origPCh   : List Id         -- `orig_parent_children`
  toReplace : Id
  parentId  : Id
  deriving Repr, DecidableEq

/-- Result of running a transaction up to its `yield`. -/
structure TRes where
  ok  : Bool
  mid : State
  deriving Repr, DecidableEq

/-- `_assign_parental(child, parent)` up to the `yield`.  The third
component is `some rb` exactly on the path whose `yield True` is followed
by rollback code. -/
def assignParental (s : State) (c p : Id) : TRes × Option PRb :=
  let pn := get s p
  let om := (pparents s c).1
  let of_ := (pparents s c).2
  -- if child.parents[0] == parent.parents[0] and child.parents[1] == parent.parents[1]
  if om = (pparents s p).1 ∧ of_ = (pparents s p).2 then (⟨false, s⟩, none)
  -- if parent is orig_mother or parent is orig_father
  else if p = om ∨ p = of_ then (⟨true, s⟩, none)
  -- if child is parent.parents[0] or child is parent.parents[1]
  else if c = (pparents s p).1 ∨ c = (pparents s p).2 then (⟨false, s⟩, none)
  -- occupied parent slot of the matching sex
  else if ((get s om).occupied ∧ pn.female) ∨ ((get s of_).occupied ∧ ¬ pn.female)
  then (⟨false, s⟩, none)
  else
    let toReplace := if pn.female then om else of_
    let origPCh := pn.children
    let trCh := (get s toReplace).children
    -- cycle detection: for child in to_replace.children: child.search_descendants([parent])
    if trCh.any (fun ch => searchDesc s (descFuel s) ch [p]) then (⟨false, s⟩, none)
    else
      let s1 := reparentLoop p pn.female trCh s
      -- NOTE the loop variable `child` shadows the parameter: after the loop
      -- it denotes the LAST element of to_replace.children (or the original
      -- argument when that list is empty).
      let shadow := trCh.getLast?.getD c
      let origMt := (get s1 shadow).mtDna
      let origY := (get s1 shadow).yChrom
      (⟨true, parentalMarkers s1 shadow p⟩,
       some { shadow := shadow, origMt := origMt, origY := origY
            , origPCh := origPCh, toReplace := toReplace, parentId := p })

/-- The parents-restoring loop shared by both rollbacks:
`for child in L: child.parents = ...` rewriting one slot back to `tr`. -/
def restoreLoop (tr : Id) (fem : Bool) (L : List Id) (s : State) : State :=
  L.foldl (fun st ch => upd st ch (setSlot fem tr)) s

/-- The rollback code of `_assign_parental` (everything after `yield True`),
applied to the state `t` reached when the `with` block exits. -/
def parentalRollback (t : State) (r : PRb) : State :=
  let t1 := upd t r.shadow (fun n => { n with mtDna := r.origMt, yChrom := r.origY })
  let t2 := upd t1 r.parentId (fun n => { n with children := r.origPCh })
  let trn := get t2 r.toReplace
  restoreLoop r.toReplace trn.female trn.children t2

/-- A full `with _assign_parental(c, p) as ok: pass` round trip: run to the
yield, then let the context close (running the rollback when present). -/
def runParental (s : State) (c p : Id) : TRes :=
  match assignParental s c p with
  | (r, none) => r
  | (r, some rb) => ⟨r.ok, parentalRollback r.mid rb⟩

/-! ### The `_assign_sibling` transaction (`pedigree.py`) -/

/-- The parents tuple as the list it contributes to
`all_parents = sib1_parents + sib2_parents`. -/
def parentsList (s : State) (i : Id) : List Id :=
  match (get s i).parents with
  | some (m, f) => [m, f]
  | none => []

/-- Steps 3 of the sibling merge: the occupied parents among the four
slots, deduplicated (`list({node for node in all_parents if node.occupied})`),
and the merged `(mother, father)` choice.  Python iterates the set in an
unspecified order; every downstream decision depends only on which of the
two candidates is female, so any dedup order yields the same result — we
use `List.dedup`.  `none` covers both rejection branches (more than two
occupied parents, or two of the same sex). -/
def sibMergedParents (s : State) (a b : Id) : Option (Id × Id) :=
  let all := ((parentsList s a ++ parentsList s b).filter
      (fun i => (get s i).occupied)).dedup
  match all with
  | [] =>
      some ((pparents s a).1,
            if ¬ (get s a).female then (pparents s a).2 else (pparents s b).2)
  | [x] =>
      if (get s x).female then
        some (x, if ¬ (get s a).female then (pparents s a).2 else (pparents s b).2)
      else
        some ((pparents s a).1, x)
  | [x, y] =>
      if (get s x).female = (get s y).female then none
      else
        some (if (get s x).female then x else y,
              if (get s y).female then x else y)
  | _ => none

/-- The child-migration loops of `_assign_sibling`:
`collector.children.append(child); child.parents = ...` for each child of
the superseded parent (`fem` selects which slot is rewritten). -/
def migrateLoop (coll : Id) (fem : Bool) (L : List Id) (s : State) : State :=
  L.foldl (fun st ch =>
    upd (upd st coll (fun n => { n with children := n.children ++ [ch] })) ch
      (setSlot fem coll)) s

/-- Saved values used by the rollback code of `_assign_sibling`. -/
structure SRb where
  a : Id
  b : Id
  aMt : Option String
  bMt : Option String
  aY : Option String
  bY : Option String
  fY : Option String
  father : Id
  mother : Id
  ftd : Id
  mtd : Id
  origFC : List Id
  origMC : List Id
  tdFC : List Id
  tdMC : List Id
  deriving Repr, DecidableEq

/-- `to_assign_mt = sib1_orig_mt if sib1_orig_mt is not None else sib2_orig_mt`. -/
def sibToMt (s2 : State) (a b : Id) : Option String :=
  if (get s2 a).mtDna ≠ none then (get s2 a).mtDna else (get s2 b).mtDna

/-- `sib1.mt_dna = to_assign_mt; sib2.mt_dna = to_assign_mt`. -/
def sibMarkMt (s2 : State) (a b : Id) : State :=
  upd (upd s2 a (fun n => { n with mtDna := sibToMt s2 a b })) b
    (fun n => { n with mtDna := sibToMt s2 a b })

/-- `to_assign_ychrom`, computed from the pre-unification values. -/
def sibToY (s2 : State) (a b : Id) : Option String :=
  if (get s2 a).yChrom ≠ none then (get s2 a).yChrom else (get s2 b).yChrom

/-- The paternal-marker unification (`if not sib1.female and not sib2.female`). -/
def sibMarkY (s2 : State) (a b : Id) : State :=
  if ¬ (get (sibMarkMt s2 a b) a).female ∧ ¬ (get (sibMarkMt s2 a b) b).female
  then upd (upd (sibMarkMt s2 a b) a (fun n => { n with yChrom := sibToY s2 a b })) b
    (fun n => { n with yChrom := sibToY s2 a b })
  else sibMarkMt s2 a b

/-- `if father.y_chrom is None: father.y_chrom = ...` (adopt from the male
sibling's current, post-unification value). -/
def sibAdopt (s5 : State) (a b father : Id) : State :=
  if (get s5 father).yChrom = none
  then upd s5 father (fun n => { n with yChrom :=
    if ¬ (get s5 a).female then (get s5 a).yChrom else (get s5 b).yChrom })
  else s5

/-- The whole marker section of `_assign_sibling`'s commit path. -/
def siblingMarkers (s2 : State) (a b father : Id) : State :=
  sibAdopt (sibMarkY s2 a b) a b father

/-- `_assign_sibling(sib1, sib2)` up to the `yield`. -/
def assignSibling (s : State) (a b : Id) : TRes × Option SRb :=
  if searchDesc s (descFuel s) a [b] ∨ searchDesc s (descFuel s) b [a] then
    (⟨false, s⟩, none)
  else if (pparents s a).1 = (pparents s b).1 ∧
          (pparents s a).2 = (pparents s b).2 then
    (⟨true, s⟩, none)
  else
    match sibMergedParents s a b with
    | none => (⟨false, s⟩, none)
    | some (mother, father) =>
      let origMC := (get s mother).children
      let origFC := (get s father).children
      let ftd := if (pparents s a).2 ≠ father then (pparents s a).2
                 else (pparents s b).2
      let mtd := if (pparents s a).1 ≠ mother then (pparents s a).1
                 else (pparents s b).1
      let tdFC := (get s ftd).children
      let tdMC := (get s mtd).children
      if ftd ≠ father ∧
         (searchDesc s (descFuel s) ftd [father, mother] ∨
          tdFC.any (fun ch => searchDesc s (descFuel s) ch [father])) then
        (⟨false, s⟩, none)
      else if mtd ≠ mother ∧
         (searchDesc s (descFuel s) mtd [father, mother] ∨
          tdMC.any (fun ch => searchDesc s (descFuel s) ch [mother])) then
        (⟨false, s⟩, none)
      -- for sib in [sib1, sib2]: known male markers must equal the merged
      -- father's marker (note: an unknown father marker also rejects)
      else if (¬ (get s a).female ∧ (get s a).yChrom ≠ none ∧
               (get s a).yChrom ≠ (get s father).yChrom) ∨
              (¬ (get s b).female ∧ (get s b).yChrom ≠ none ∧
               (get s b).yChrom ≠ (get s father).yChrom) then
        (⟨false, s⟩, none)
      else
        let s2 := if mtd ≠ mother then migrateLoop mother true tdMC
            (if ftd ≠ father then migrateLoop father false tdFC s else s)
          else (if ftd ≠ father then migrateLoop father false tdFC s else s)
        (⟨true, siblingMarkers s2 a b father⟩,
         some { a := a, b := b
              , aMt := (get s2 a).mtDna, bMt := (get s2 b).mtDna
              , aY := (get s2 a).yChrom, bY := (get s2 b).yChrom
              , fY := (get (sibMarkY s2 a b) father).yChrom
              , father := father, mother := mother, ftd := ftd
              , mtd := mtd, origFC := origFC, origMC := origMC
              , tdFC := tdFC, tdMC := tdMC })

/-- The rollback code of `_assign_sibling` (everything after `yield True`). -/
def siblingRollback (t : State) (r : SRb) : State :=
  let t1 := upd t r.a (fun n => { n with mtDna := r.aMt })
  let t2 := upd t1 r.b (fun n => { n with mtDna := r.bMt })
  let t3 := upd t2 r.a (fun n => { n with yChrom := r.aY })
  let t4 := upd t3 r.b (fun n => { n with yChrom := r.bY })
  let t5 := upd t4 r.father (fun n => { n with yChrom := r.fY })
  let t6 := upd t5 r.father (fun n => { n with children := r.origFC })
  let t7 := upd t6 r.mother (fun n => { n with children := r.origMC })
  let t8 := upd t7 r.ftd (fun n => { n with children := r.tdFC })
  let t9 := upd t8 r.mtd (fun n => { n with children := r.tdMC })
  let t10 := restoreLoop r.ftd false r.tdFC t9
  restoreLoop r.mtd true r.tdMC t10

/-- A full `with _assign_sibling(a, b) as ok: pass` round trip. -/
def runSibling (s : State) (a b : Id) : TRes :=
  match assignSibling s a b with
  | (r, none) => r
  | (r, some rb) => ⟨r.ok, siblingRollback r.mid rb⟩

/-! ### Characterizations of the mutation loops -/

theorem upd_swap (st : State) (i j : Id) (f g : NodeR → NodeR)
    (h : ∀ n, g (f n) = f (g n)) :
    upd (upd st i f) j g = upd (upd st j g) i f := by
  unfold upd
  rw [List.map_map, List.map_map]
  apply List.map_congr_left
  intro p _
  by_cases hi : p.1 = i
  · by_cases hj : p.1 = j
    · have hij : i = j := hi ▸ hj
      subst hij
      simp [Function.comp, hi, h p.2]
    · have hij : ¬ i = j := fun hc => hj (hc ▸ hi)
      have hji : ¬ j = i := fun hc => hij hc.symm
      simp [Function.comp, hi, hj, hij, hji]
  · by_cases hj : p.1 = j
    · have hij : ¬ i = j := fun hc => hi (hc ▸ hj)
      have hji : ¬ j = i := fun hc => hij hc.symm
      simp [Function.comp, hi, hj, hij, hji]
    · simp [Function.comp, hi, hj]

theorem lookup_eq_some_get {s : State} {i : Id} (h : i ∈ keys s) :
    List.lookup i s = some (get s i) := by
  rcases lookup_isSome_of_mem h with ⟨n, hn⟩
  simp [get, hn]

theorem lookup_eq_none_of_not_mem {s : State} {i : Id} (h : i ∉ keys s) :
    List.lookup i s = none := by
  cases hl : List.lookup i s with
  | none => rfl
  | some n => exact absurd (mem_keys_of_lookup hl) h

/-- Arena extensionality in terms of `get`. -/
theorem state_ext_get {s t : State} (hk : keys s = keys t)
    (hnd : (keys s).Nodup) (h : ∀ i, get s i = get t i) : s = t := by
  apply state_ext hk hnd
  intro i
  by_cases hi : i ∈ keys s
  · rw [lookup_eq_some_get hi, lookup_eq_some_get (hk ▸ hi), h]
  · rw [lookup_eq_none_of_not_mem hi,
        lookup_eq_none_of_not_mem (fun hc => hi (hk ▸ hc))]

@[simp] theorem slotted_slotted (fem : Bool) (p : Id) (pr : Option (Id × Id)) :
    slotted fem p (slotted fem p pr) = slotted fem p pr := by
  cases fem <;> simp [slotted]

@[simp] theorem keys_restoreLoop (tr : Id) (fem : Bool) (L : List Id) (s : State) :
    keys (restoreLoop tr fem L s) = keys s := by
  induction L generalizing s with
  | nil => simp [restoreLoop]
  | cons ch L' ih => simp [restoreLoop, List.foldl_cons] at ih ⊢; rw [ih, keys_upd]

@[simp] theorem keys_reparentLoop (p : Id) (fem : Bool) (L : List Id) (s : State) :
    keys (reparentLoop p fem L s) = keys s := by
  induction L generalizing s with
  | nil => simp [reparentLoop]
  | cons ch L' ih => simp [reparentLoop, List.foldl_cons] at ih ⊢; rw [ih, keys_upd, keys_upd]

theorem migrateLoop_eq_reparentLoop (coll : Id) (fem : Bool) (L : List Id) (s : State) :
    migrateLoop coll fem L s = reparentLoop coll fem L s := by
  unfold migrateLoop reparentLoop
  apply List.foldl_ext
  intro st ch _
  apply upd_swap
  intro n
  simp [setSlot]

theorem restoreLoop_get (tr : Id) (fem : Bool) (L : List Id) (s : State) (x : Id)
    (hL : ∀ ch ∈ L, ch ∈ keys s) :
    get (restoreLoop tr fem L s) x =
      { get s x with parents :=
          if x ∈ L then slotted fem tr (get s x).parents else (get s x).parents } := by
  induction L generalizing s with
  | nil => simp [restoreLoop]
  | cons ch L' ih =>
    have hstep : restoreLoop tr fem (ch :: L') s =
        restoreLoop tr fem L' (upd s ch (setSlot fem tr)) := by
      simp [restoreLoop, List.foldl_cons]
    rw [hstep]
    have hL' : ∀ c ∈ L', c ∈ keys (upd s ch (setSlot fem tr)) := by
      intro c hc; rw [keys_upd]; exact hL c (List.mem_cons_of_mem _ hc)
    rw [ih _ hL']
    by_cases hxc : x = ch
    · subst hxc
      rw [get_upd_mem _ _ _ (hL x (List.mem_cons_self _ _))]
      by_cases hxl : x ∈ L' <;> simp [setSlot, hxl]
    · rw [get_upd_other _ _ _ _ hxc]
      by_cases hxl : x ∈ L' <;> simp [hxc, hxl]

theorem reparentLoop_get (p : Id) (fem : Bool) (L : List Id) (s : State) (x : Id)
    (hp : p ∈ keys s) (hL : ∀ ch ∈ L, ch ∈ keys s) :
    get (reparentLoop p fem L s) x =
      { get s x with
        parents :=
          if x ∈ L then slotted fem p (get s x).parents else (get s x).parents,
        children :=
          if x = p then (get s x).children ++ L else (get s x).children } := by
  induction L generalizing s with
  | nil => simp [reparentLoop]
  | cons ch L' ih =>
    have hstep : reparentLoop p fem (ch :: L') s =
        reparentLoop p fem L'
          (upd (upd s ch (setSlot fem p)) p
            (fun n => { n with children := n.children ++ [ch] })) := by
      simp [reparentLoop, List.foldl_cons]
    set s' := upd (upd s ch (setSlot fem p)) p
        (fun n => { n with children := n.children ++ [ch] }) with hs'
    have hkeys' : keys s' = keys s := by rw [hs', keys_upd, keys_upd]
    have hp' : p ∈ keys s' := by rw [hkeys']; exact hp
    have hL' : ∀ c ∈ L', c ∈ keys s' := by
      intro c hc; rw [hkeys']; exact hL c (List.mem_cons_of_mem _ hc)
    rw [hstep, ih _ hp' hL']
    have hchk : ch ∈ keys s := hL ch (List.mem_cons_self _ _)
    have hget : ∀ y, get s' y =
        { get s y with
          parents := if y = ch then slotted fem p (get s y).parents
                     else (get s y).parents,
          children := if y = p then (get s y).children ++ [ch]
                      else (get s y).children } := by
      intro y
      by_cases hyp : y = p
      · subst hyp
        rw [hs', get_upd_mem _ _ _ (by rw [keys_upd]; exact hp)]
        by_cases hyc : y = ch
        · subst hyc
          rw [get_upd_mem _ _ _ hchk]
          simp [setSlot]
        · rw [get_upd_other _ _ _ _ hyc]
          simp [hyc]
      · rw [hs', get_upd_other _ _ _ _ hyp]
        by_cases hyc : y = ch
        · subst hyc
          rw [get_upd_mem _ _ _ hchk]
          simp [setSlot, hyp]
        · rw [get_upd_other _ _ _ _ hyc]
          simp [hyp, hyc]
    rw [hget x]
    by_cases hxc : x = ch
    · subst hxc
      by_cases hxp : x = p
      · subst hxp
        simp [List.append_assoc]
      · simp [hxp, List.append_assoc]
    · by_cases hxp : x = p
      · subst hxp
        simp [hxc, List.mem_cons, List.append_assoc]
      · simp [hxc, hxp, List.mem_cons]

/-! ### Well-formedness of a pedigree state

These are the structural invariants the spec's data model declares
(unique ids, pointers stay inside the graph, `children` lists and parent
slots mutually consistent, mother female / father male). -/

/-- Ids are unique (`deepcopy_graph` asserts this). -/
def WFNodup (s : State) : Prop := (keys s).Nodup

/-- Every id mentioned by a `children` list or a parents tuple is in the graph. -/
def WFClosed (s : State) : Prop :=
  ∀ e ∈ s, (∀ c ∈ e.2.children, c ∈ keys s) ∧
    (e.2.parents ≠ none →
      (e.2.parents.getD ("", "")).1 ∈ keys s ∧
      (e.2.parents.getD ("", "")).2 ∈ keys s)

/-- A recorded child points back at the recording parent through the slot
matching the parent's sex. -/
def WFCoh (s : State) : Prop :=
  ∀ e ∈ s, ∀ c ∈ e.2.children,
    (get s c).parents ≠ none ∧
    (e.2.female = true → (pparents s c).1 = e.1) ∧
    (e.2.female = false → (pparents s c).2 = e.1)

/-- A node with a parents tuple is recorded as a child of both parents. -/
def WFCohR (s : State) : Prop :=
  ∀ e ∈ s, e.2.parents ≠ none →
    e.1 ∈ (get s (e.2.parents.getD ("", "")).1).children ∧
    e.1 ∈ (get s (e.2.parents.getD ("", "")).2).children

/-- In a parents tuple the mother is female and the father male
(`Node.__init__` asserts this). -/
def WFSex (s : State) : Prop :=
  ∀ e ∈ s, e.2.parents ≠ none →
    (get s (e.2.parents.getD ("", "")).1).female = true ∧
    (get s (e.2.parents.getD ("", "")).2).female = false

def WF (s : State) : Prop :=
  WFNodup s ∧ WFClosed s ∧ WFCoh s ∧ WFCohR s ∧ WFSex s

theorem mem_of_lookup {s : State} {i : Id} {n : NodeR}
    (h : List.lookup i s = some n) : (i, n) ∈ s := by
  induction s with
  | nil => simp [List.lookup] at h
  | cons e t ih =>
    obtain ⟨k, m⟩ := e
    by_cases he : i = k
    · subst he
      rw [lookup_cons_hit] at h
      rw [← Option.some.inj h]
      exact List.mem_cons_self _ _
    · rw [lookup_cons_miss _ _ he] at h
      exact List.mem_cons_of_mem _ (ih h)

theorem entry_of_mem_keys {s : State} {i : Id} (h : i ∈ keys s) :
    (i, get s i) ∈ s := mem_of_lookup (lookup_eq_some_get h)

theorem mem_keys_of_parents {s : State} {i : Id}
    (h : (get s i).parents ≠ none) : i ∈ keys s := by
  by_contra hn
  rw [get_eq_dflt_of_not_mem hn] at h
  exact h rfl

theorem closed_children {s : State} (hwf : WF s) {i : Id} (hi : i ∈ keys s) :
    ∀ c ∈ (get s i).children, c ∈ keys s :=
  (hwf.2.1 _ (entry_of_mem_keys hi)).1

theorem closed_parents {s : State} (hwf : WF s) {i : Id} {m f : Id}
    (h : (get s i).parents = some (m, f)) : m ∈ keys s ∧ f ∈ keys s := by
  have hi : i ∈ keys s := mem_keys_of_parents (by simp [h])
  have := (hwf.2.1 _ (entry_of_mem_keys hi)).2 (by simp [h])
  simpa [h] using this

theorem coh_child {s : State} (hwf : WF s) {par c : Id} (hp : par ∈ keys s)
    (hc : c ∈ (get s par).children) :
    (get s c).parents ≠ none ∧
    ((get s par).female = true → (pparents s c).1 = par) ∧
    ((get s par).female = false → (pparents s c).2 = par) :=
  hwf.2.2.1 _ (entry_of_mem_keys hp) c hc

theorem cohR_parents {s : State} (hwf : WF s) {i m f : Id}
    (h : (get s i).parents = some (m, f)) :
    i ∈ (get s m).children ∧ i ∈ (get s f).children := by
  have hi : i ∈ keys s := mem_keys_of_parents (by simp [h])
  have := hwf.2.2.2.1 _ (entry_of_mem_keys hi) (by simp [h])
  simpa [h] using this

theorem sex_parents {s : State} (hwf : WF s) {i m f : Id}
    (h : (get s i).parents = some (m, f)) :
    (get s m).female = true ∧ (get s f).female = false := by
  have hi : i ∈ keys s := mem_keys_of_parents (by simp [h])
  have := hwf.2.2.2.2 _ (entry_of_mem_keys hi) (by simp [h])
  simpa [h] using this

theorem get_upd_cases {s : State} {i : Id} (f : NodeR → NodeR)
    (h : i ∈ keys s) (x : Id) :
    get (upd s i f) x = if x = i then f (get s i) else get s x := by
  by_cases hx : x = i
  · subst hx; rw [get_upd_mem _ _ _ h]; simp
  · rw [get_upd_other _ _ _ _ hx]; simp [hx]

/-! ### Claim C1: rollback restores the exact pre-attempt state -/

theorem slotted_restore (fem : Bool) (p tr : Id) (pr : Option (Id × Id))
    (hne : pr ≠ none)
    (h1 : fem = true → (pr.getD ("", "")).1 = tr)
    (h2 : fem = false → (pr.getD ("", "")).2 = tr) :
    slotted fem tr (slotted fem p pr) = pr := by
  obtain ⟨⟨m, f⟩, rfl⟩ : ∃ d, pr = some d := by
    cases pr with
    | none => exact absurd rfl hne
    | some d => exact ⟨d, rfl⟩
  cases fem
  · have := h2 rfl
    simp [Option.getD] at this
    simp [slotted, this]
  · have := h1 rfl
    simp [Option.getD] at this
    simp [slotted, this]

/-- Core rollback lemma for `_assign_parental`: starting from any state
`s3` that differs from the re-parented state only in the shadow node's
markers, the rollback code restores `s` exactly. -/
theorem parentalRollback_restores (s : State) (p tr sh : Id) (fem : Bool)
    (m3 y3 : Option String) (hwf : WF s)
    (hp : p ∈ keys s) (hne : tr ≠ p) (hsh : sh ∈ keys s)
    (hfem : (get s tr).female = fem)
    (hcoh : ∀ x ∈ (get s tr).children,
      (get s x).parents ≠ none ∧
      (fem = true → (pparents s x).1 = tr) ∧
      (fem = false → (pparents s x).2 = tr))
    (hLk : ∀ x ∈ (get s tr).children, x ∈ keys s)
    (s3 : State) (hk3 : keys s3 = keys s)
    (h3 : ∀ x, get s3 x =
      { get (reparentLoop p fem (get s tr).children s) x with
        mtDna := if x = sh then m3
          else (get (reparentLoop p fem (get s tr).children s) x).mtDna,
        yChrom := if x = sh then y3
          else (get (reparentLoop p fem (get s tr).children s) x).yChrom }) :
    parentalRollback s3
      { shadow := sh
      , origMt := (get (reparentLoop p fem (get s tr).children s) sh).mtDna
      , origY := (get (reparentLoop p fem (get s tr).children s) sh).yChrom
      , origPCh := (get s p).children
      , toReplace := tr
      , parentId := p } = s := by
  set trCh := (get s tr).children with htrCh
  set s1 := reparentLoop p fem trCh s with hs1
  have hg1 : ∀ x, get s1 x =
      { get s x with
        parents := if x ∈ trCh then slotted fem p (get s x).parents
                   else (get s x).parents,
        children := if x = p then (get s x).children ++ trCh
                    else (get s x).children } := by
    intro x
    exact reparentLoop_get p fem trCh s x hp hLk
  -- t1 restores the shadow markers pointwise back to `s1`
  set t1 := upd s3 sh (fun n =>
    { n with mtDna := (get s1 sh).mtDna, yChrom := (get s1 sh).yChrom }) with ht1def
  have hk1 : keys t1 = keys s := by rw [ht1def, keys_upd, hk3]
  have ht1 : ∀ x, get t1 x = get s1 x := by
    intro x
    rw [ht1def, get_upd_cases _ (by rw [hk3]; exact hsh)]
    by_cases hx : x = sh
    · subst hx
      rw [h3 x]
      simp
    · rw [h3 x]
      simp [hx]
  -- t2 additionally restores the collector's children list
  set t2 := upd t1 p (fun n => { n with children := (get s p).children })
    with ht2def
  have hk2 : keys t2 = keys s := by rw [ht2def, keys_upd, hk1]
  have ht2 : ∀ x, get t2 x =
      { get s x with
        parents := if x ∈ trCh then slotted fem p (get s x).parents
                   else (get s x).parents } := by
    intro x
    rw [ht2def, get_upd_cases _ (by rw [hk1]; exact hp)]
    by_cases hx : x = p
    · subst hx
      rw [ht1 x, hg1 x]
      simp
    · rw [ht1 x, hg1 x]
      simp [hx]
  have htrn : get t2 tr =
      { get s tr with
        parents := if tr ∈ trCh then slotted fem p (get s tr).parents
                   else (get s tr).parents } := ht2 tr
  have htrnCh : (get t2 tr).children = trCh := by rw [htrn]
  have htrnF : (get t2 tr).female = fem := by rw [htrn]; exact hfem
  have hunf : parentalRollback s3
      { shadow := sh
      , origMt := (get s1 sh).mtDna
      , origY := (get s1 sh).yChrom
      , origPCh := (get s p).children
      , toReplace := tr
      , parentId := p } =
      restoreLoop tr (get t2 tr).female (get t2 tr).children t2 := rfl
  rw [hunf, htrnCh, htrnF]
  apply state_ext_get
  · simp [hk2]
  · rw [keys_restoreLoop, hk2]; exact hwf.1
  · intro x
    rw [restoreLoop_get _ _ _ _ _ (fun ch hch => by rw [hk2]; exact hLk ch hch),
        ht2 x]
    by_cases hx : x ∈ trCh
    · have hco := hcoh x hx
      simp only [hx, if_pos]
      rw [slotted_restore fem p tr (get s x).parents hco.1
        (by intro h; have := hco.2.1 h; simpa [pparents] using this)
        (by intro h; have := hco.2.2 h; simpa [pparents] using this)]
    · simp [hx]

@[simp] theorem keys_parentalMarkersMt (s1 : State) (sh p : Id) :
    keys (parentalMarkersMt s1 sh p) = keys s1 := by
  unfold parentalMarkersMt
  split_ifs <;> simp

@[simp] theorem keys_parentalMarkers (s1 : State) (sh p : Id) :
    keys (parentalMarkers s1 sh p) = keys s1 := by
  unfold parentalMarkers
  split_ifs <;> simp

theorem parentalMarkersMt_get (s1 : State) (sh p : Id) (hsh : sh ∈ keys s1)
    (x : Id) :
    get (parentalMarkersMt s1 sh p) x =
      { get s1 x with
        mtDna := if x = sh then (get (parentalMarkersMt s1 sh p) sh).mtDna
                 else (get s1 x).mtDna } := by
  by_cases hA : (get s1 sh).mtDna = none ∧ (get s1 p).female
  · have heq : parentalMarkersMt s1 sh p =
        upd s1 sh (fun n => { n with mtDna := (get s1 p).mtDna }) := by
      unfold parentalMarkersMt; rw [if_pos hA]
    rw [heq, get_upd_cases _ hsh, get_upd_cases _ hsh]
    by_cases hx : x = sh <;> simp [hx]
  · have heq : parentalMarkersMt s1 sh p = s1 := by
      unfold parentalMarkersMt; rw [if_neg hA]
    rw [heq]
    by_cases hx : x = sh <;> simp [hx]

theorem parentalMarkers_get (s1 : State) (sh p : Id) (hsh : sh ∈ keys s1)
    (x : Id) :
    get (parentalMarkers s1 sh p) x =
      { get s1 x with
        mtDna := if x = sh then (get (parentalMarkers s1 sh p) sh).mtDna
                 else (get s1 x).mtDna,
        yChrom := if x = sh then (get (parentalMarkers s1 sh p) sh).yChrom
                  else (get s1 x).yChrom } := by
  have hsh2 : sh ∈ keys (parentalMarkersMt s1 sh p) := by simpa using hsh
  by_cases hB : ¬ (get (parentalMarkersMt s1 sh p) sh).female ∧
      (get (parentalMarkersMt s1 sh p) sh).yChrom = none ∧
      ¬ (get (parentalMarkersMt s1 sh p) p).female
  · have heq : parentalMarkers s1 sh p =
        upd (parentalMarkersMt s1 sh p) sh (fun n =>
          { n with yChrom := (get (parentalMarkersMt s1 sh p) p).yChrom }) := by
      unfold parentalMarkers; rw [if_pos hB]
    rw [heq, get_upd_cases _ hsh2, get_upd_cases _ hsh2,
        parentalMarkersMt_get _ _ _ hsh x, parentalMarkersMt_get _ _ _ hsh sh]
    by_cases hx : x = sh <;> simp [hx]
  · have heq : parentalMarkers s1 sh p = parentalMarkersMt s1 sh p := by
      unfold parentalMarkers; rw [if_neg hB]
    rw [heq, parentalMarkersMt_get _ _ _ hsh x, parentalMarkersMt_get _ _ _ hsh sh]
    by_cases hx : x = sh <;> simp [hx]

theorem mem_of_getLastD {L : List Id} {c x : Id} (h : L.getLast?.getD c = x) :
    x ∈ L ∨ (L = [] ∧ x = c) := by
  cases hL : L.getLast? with
  | none =>
    right
    rw [hL] at h
    exact ⟨List.getLast?_eq_none_iff.mp hL, h.symm⟩
  | some y =>
    left
    rw [hL] at h
    simp at h
    subst h
    rcases List.mem_getLast?_eq_getLast (by rw [hL]; exact rfl) with ⟨hne, hy⟩
    exact hy ▸ List.getLast_mem hne

/-- **Claim C1, parental half.**  `_assign_parental` restores the exact
pre-attempt state after rollback, whatever the outcome. -/
theorem runParental_restores (s : State) (c p : Id) (hwf : WF s)
    {cm cf pm pf : Id}
    (hc : (get s c).parents = some (cm, cf))
    (hp : (get s p).parents = some (pm, pf)) :
    (runParental s c p).mid = s := by
  have hpk : p ∈ keys s := mem_keys_of_parents (by simp [hp])
  have hck : c ∈ keys s := mem_keys_of_parents (by simp [hc])
  have hsex := sex_parents hwf hc
  have hcmk := (closed_parents hwf hc).1
  have hcfk := (closed_parents hwf hc).2
  simp only [runParental, assignParental, pparents, hc, hp, Option.getD_some]
  split_ifs with h1 h2 h3 h4 h5 h6 h6
  all_goals try rfl
  · -- commit with a female parent: to_replace is the original mother `cm`
    have hshk : (get s cm).children.getLast?.getD c ∈ keys s := by
      rcases @mem_of_getLastD ((get s cm).children) c _ rfl with
        hmem | ⟨_, hrfl⟩
      · exact closed_children hwf hcmk _ hmem
      · rw [hrfl]; exact hck
    exact parentalRollback_restores s p cm _ (get s p).female _ _ hwf hpk
      (fun hcontra => h2 (Or.inl hcontra.symm)) hshk
      (by rw [hsex.1, h5])
      (fun x hx => by
        have hco := coh_child hwf hcmk hx
        exact ⟨hco.1, fun _ => hco.2.1 hsex.1,
               fun hfalse => by rw [h5] at hfalse; exact Bool.noConfusion hfalse⟩)
      (closed_children hwf hcmk)
      _ (by simp)
      (parentalMarkers_get _ _ p (by simpa using hshk))
  · -- commit with a male parent: to_replace is the original father `cf`
    simp only [Bool.not_eq_true] at h5
    have hshk : (get s cf).children.getLast?.getD c ∈ keys s := by
      rcases @mem_of_getLastD ((get s cf).children) c _ rfl with
        hmem | ⟨_, hrfl⟩
      · exact closed_children hwf hcfk _ hmem
      · rw [hrfl]; exact hck
    exact parentalRollback_restores s p cf _ (get s p).female _ _ hwf hpk
      (fun hcontra => h2 (Or.inr hcontra.symm)) hshk
      (by rw [hsex.2, h5])
      (fun x hx => by
        have hco := coh_child hwf hcfk hx
        exact ⟨hco.1,
               fun htrue => by rw [h5] at htrue; exact Bool.noConfusion htrue,
               fun _ => hco.2.2 hsex.2⟩)
      (closed_children hwf hcfk)
      _ (by simp)
      (parentalMarkers_get _ _ p (by simpa using hshk))

/-! Characterization of the sibling marker section. -/

@[simp] theorem keys_sibMarkMt (s2 : State) (a b : Id) :
    keys (sibMarkMt s2 a b) = keys s2 := by
  unfold sibMarkMt; simp

@[simp] theorem keys_sibMarkY (s2 : State) (a b : Id) :
    keys (sibMarkY s2 a b) = keys s2 := by
  unfold sibMarkY; split_ifs <;> simp

@[simp] theorem keys_sibAdopt (s5 : State) (a b f : Id) :
    keys (sibAdopt s5 a b f) = keys s5 := by
  unfold sibAdopt; split_ifs <;> simp

@[simp] theorem keys_siblingMarkers (s2 : State) (a b f : Id) :
    keys (siblingMarkers s2 a b f) = keys s2 := by
  unfold siblingMarkers; simp

theorem sibMarkMt_get (s2 : State) (a b : Id) (hak : a ∈ keys s2)
    (hbk : b ∈ keys s2) (x : Id) :
    get (sibMarkMt s2 a b) x =
      { get s2 x with mtDna := if x = a ∨ x = b then sibToMt s2 a b
                               else (get s2 x).mtDna } := by
  unfold sibMarkMt
  rw [get_upd_cases _ (by simpa using hbk)]
  by_cases hxb : x = b
  · subst hxb
    rw [if_pos rfl, get_upd_cases _ hak]
    by_cases hxa : x = a
    · subst hxa; simp
    · simp [hxa]
  · rw [if_neg hxb, get_upd_cases _ hak]
    by_cases hxa : x = a
    · subst hxa; simp [hxb]
    · simp [hxa, hxb]

theorem sibMarkY_get (s2 : State) (a b : Id) (hak : a ∈ keys s2)
    (hbk : b ∈ keys s2) (x : Id) :
    get (sibMarkY s2 a b) x =
      { get (sibMarkMt s2 a b) x with
        yChrom := (get (sibMarkY s2 a b) x).yChrom } := by
  by_cases hC : ¬ (get (sibMarkMt s2 a b) a).female ∧
      ¬ (get (sibMarkMt s2 a b) b).female
  · have heq : sibMarkY s2 a b =
        upd (upd (sibMarkMt s2 a b) a (fun n => { n with yChrom := sibToY s2 a b })) b
          (fun n => { n with yChrom := sibToY s2 a b }) := by
      unfold sibMarkY; rw [if_pos hC]
    rw [heq, get_upd_cases _ (by simpa using hbk)]
    by_cases hxb : x = b
    · subst hxb
      rw [if_pos rfl, get_upd_cases _ (by simpa using hak)]
      by_cases hxa : x = a
      · subst hxa; simp
      · simp [hxa]
    · rw [if_neg hxb, get_upd_cases _ (by simpa using hak)]
      by_cases hxa : x = a
      · subst hxa; simp [hxb]
      · simp [hxa, hxb]
  · have heq : sibMarkY s2 a b = sibMarkMt s2 a b := by
      unfold sibMarkY; rw [if_neg hC]
    rw [heq]

theorem sibMarkY_y_other (s2 : State) (a b : Id) (hak : a ∈ keys s2)
    (hbk : b ∈ keys s2) (x : Id) (hxa : x ≠ a) (hxb : x ≠ b) :
    (get (sibMarkY s2 a b) x).yChrom = (get (sibMarkMt s2 a b) x).yChrom := by
  by_cases hC : ¬ (get (sibMarkMt s2 a b) a).female ∧
      ¬ (get (sibMarkMt s2 a b) b).female
  · have heq : sibMarkY s2 a b =
        upd (upd (sibMarkMt s2 a b) a (fun n => { n with yChrom := sibToY s2 a b })) b
          (fun n => { n with yChrom := sibToY s2 a b }) := by
      unfold sibMarkY; rw [if_pos hC]
    rw [heq, get_upd_other _ _ _ _ hxb, get_upd_other _ _ _ _ hxa]
  · have heq : sibMarkY s2 a b = sibMarkMt s2 a b := by
      unfold sibMarkY; rw [if_neg hC]
    rw [heq]

theorem sibAdopt_get (s5 : State) (a b f : Id) (hfk : f ∈ keys s5) (x : Id) :
    get (sibAdopt s5 a b f) x =
      { get s5 x with yChrom := (get (sibAdopt s5 a b f) x).yChrom } := by
  by_cases hC : (get s5 f).yChrom = none
  · have heq : sibAdopt s5 a b f =
        upd s5 f (fun n => { n with yChrom :=
          if ¬ (get s5 a).female then (get s5 a).yChrom else (get s5 b).yChrom }) := by
      unfold sibAdopt; rw [if_pos hC]
    rw [heq, get_upd_cases _ hfk]
    by_cases hxf : x = f
    · subst hxf; simp
    · simp [hxf]
  · have heq : sibAdopt s5 a b f = s5 := by
      unfold sibAdopt; rw [if_neg hC]
    rw [heq]

theorem sibAdopt_y_other (s5 : State) (a b f : Id) (hfk : f ∈ keys s5)
    (x : Id) (hxf : x ≠ f) :
    (get (sibAdopt s5 a b f) x).yChrom = (get s5 x).yChrom := by
  by_cases hC : (get s5 f).yChrom = none
  · have heq : sibAdopt s5 a b f =
        upd s5 f (fun n => { n with yChrom :=
          if ¬ (get s5 a).female then (get s5 a).yChrom else (get s5 b).yChrom }) := by
      unfold sibAdopt; rw [if_pos hC]
    rw [heq, get_upd_other _ _ _ _ hxf]
  · have heq : sibAdopt s5 a b f = s5 := by
      unfold sibAdopt; rw [if_neg hC]
    rw [heq]

/-- Only `mtDna`/`yChrom` of any node differ between `s2` and the state
after the whole marker section. -/
theorem siblingMarkers_get (s2 : State) (a b f : Id) (hak : a ∈ keys s2)
    (hbk : b ∈ keys s2) (hfk : f ∈ keys s2) (x : Id) :
    get (siblingMarkers s2 a b f) x =
      { get s2 x with
        mtDna := (get (siblingMarkers s2 a b f) x).mtDna,
        yChrom := (get (siblingMarkers s2 a b f) x).yChrom } := by
  unfold siblingMarkers
  rw [sibAdopt_get _ _ _ _ (by simpa using hfk) x,
      sibMarkY_get _ _ _ hak hbk x, sibMarkMt_get _ _ _ hak hbk x]

theorem siblingMarkers_mt_other (s2 : State) (a b f : Id) (hak : a ∈ keys s2)
    (hbk : b ∈ keys s2) (hfk : f ∈ keys s2) (x : Id)
    (hxa : x ≠ a) (hxb : x ≠ b) :
    (get (siblingMarkers s2 a b f) x).mtDna = (get s2 x).mtDna := by
  unfold siblingMarkers
  rw [sibAdopt_get _ _ _ _ (by simpa using hfk) x,
      sibMarkY_get _ _ _ hak hbk x, sibMarkMt_get _ _ _ hak hbk x]
  simp [hxa, hxb]

theorem siblingMarkers_y_other (s2 : State) (a b f : Id) (hak : a ∈ keys s2)
    (hbk : b ∈ keys s2) (hfk : f ∈ keys s2) (x : Id)
    (hxa : x ≠ a) (hxb : x ≠ b) (hxf : x ≠ f) :
    (get (siblingMarkers s2 a b f) x).yChrom = (get s2 x).yChrom := by
  unfold siblingMarkers
  rw [sibAdopt_y_other _ _ _ _ (by simpa using hfk) x hxf,
      sibMarkY_y_other _ _ _ hak hbk x hxa hxb,
      sibMarkMt_get _ _ _ hak hbk x]

/-- `father_orig_ychrom` is read after the sibling-marker unification, but
equals the original value when the father is neither sibling. -/
theorem sibMarkY_father_y (s2 : State) (a b f : Id) (hak : a ∈ keys s2)
    (hbk : b ∈ keys s2) (hfa : f ≠ a) (hfb : f ≠ b) :
    (get (sibMarkY s2 a b) f).yChrom = (get s2 f).yChrom := by
  rw [sibMarkY_y_other _ _ _ hak hbk f hfa hfb,
      sibMarkMt_get _ _ _ hak hbk f]

/-- Core rollback lemma for `_assign_sibling`: starting from any state `s6`
that differs from the child-migrated state only in marker values, with
markers outside `{a, b, father}` untouched, the rollback code restores `s`
exactly. -/
theorem siblingRollback_restores
    (s : State) (a b father mother ftd mtd : Id) (tdFC tdMC L_F L_M : List Id)
    (hwf : WF s)
    (hab : a ≠ b) (hfa : father ≠ a) (hfb : father ≠ b)
    (hak : a ∈ keys s) (hbk : b ∈ keys s) (hfk : father ∈ keys s)
    (hmk : mother ∈ keys s) (hftdk : ftd ∈ keys s) (hmtdk : mtd ∈ keys s)
    (htdFC : tdFC = (get s ftd).children) (htdMC : tdMC = (get s mtd).children)
    (hLF : ∀ x ∈ L_F, x ∈ tdFC) (hLM : ∀ x ∈ L_M, x ∈ tdMC)
    (hcohF : ∀ x ∈ tdFC, (get s x).parents ≠ none ∧ (pparents s x).2 = ftd)
    (hcohM : ∀ x ∈ tdMC, (get s x).parents ≠ none ∧ (pparents s x).1 = mtd)
    (s6 : State) (hk6 : keys s6 = keys s)
    (h6 : ∀ x, get s6 x =
      { get (migrateLoop mother true L_M (migrateLoop father false L_F s)) x with
        mtDna := (get s6 x).mtDna, yChrom := (get s6 x).yChrom })
    (h6mt : ∀ x, x ≠ a → x ≠ b → (get s6 x).mtDna = (get s x).mtDna)
    (h6y : ∀ x, x ≠ a → x ≠ b → x ≠ father →
      (get s6 x).yChrom = (get s x).yChrom) :
    siblingRollback s6
      { a := a, b := b, aMt := (get s a).mtDna, bMt := (get s b).mtDna
      , aY := (get s a).yChrom, bY := (get s b).yChrom
      , fY := (get s father).yChrom, father := father, mother := mother
      , ftd := ftd, mtd := mtd, origFC := (get s father).children
      , origMC := (get s mother).children, tdFC := tdFC, tdMC := tdMC } = s := by
  have htdFCk : ∀ x ∈ tdFC, x ∈ keys s := fun x hx =>
    closed_children hwf hftdk x (htdFC ▸ hx)
  have htdMCk : ∀ x ∈ tdMC, x ∈ keys s := fun x hx =>
    closed_children hwf hmtdk x (htdMC ▸ hx)
  have hLFk : ∀ x ∈ L_F, x ∈ keys s := fun x hx => htdFCk x (hLF x hx)
  have hLMk : ∀ x ∈ L_M, x ∈ keys s := fun x hx => htdMCk x (hLM x hx)
  set S1 := migrateLoop father false L_F s with hS1def
  set S2 := migrateLoop mother true L_M S1 with hS2def
  have hkS1 : keys S1 = keys s := by
    rw [hS1def, migrateLoop_eq_reparentLoop]; simp
  have hkS2 : keys S2 = keys s := by
    rw [hS2def, migrateLoop_eq_reparentLoop]; simp [hkS1]
  have hg1 : ∀ x, get S1 x = { get s x with
      parents := if x ∈ L_F then slotted false father (get s x).parents
                 else (get s x).parents,
      children := if x = father then (get s x).children ++ L_F
                  else (get s x).children } := by
    intro x
    rw [hS1def, migrateLoop_eq_reparentLoop]
    exact reparentLoop_get _ _ _ _ _ hfk hLFk
  have hg2 : ∀ x, get S2 x = { get S1 x with
      parents := if x ∈ L_M then slotted true mother (get S1 x).parents
                 else (get S1 x).parents,
      children := if x = mother then (get S1 x).children ++ L_M
                  else (get S1 x).children } := by
    intro x
    rw [hS2def, migrateLoop_eq_reparentLoop]
    exact reparentLoop_get _ _ _ _ _ (by rw [hkS1]; exact hmk)
      (fun c hc => by rw [hkS1]; exact hLMk c hc)
  have hp6 : ∀ x, (get s6 x).parents = (get S2 x).parents := fun x => by
    rw [h6 x]
  have hf6 : ∀ x, (get s6 x).female = (get s x).female := fun x => by
    rw [h6 x, hg2 x, hg1 x]
  have ho6 : ∀ x, (get s6 x).occupied = (get s x).occupied := fun x => by
    rw [h6 x, hg2 x, hg1 x]
  have hor6 : ∀ x, (get s6 x).original = (get s x).original := fun x => by
    rw [h6 x, hg2 x, hg1 x]
  -- the restore chain of upds
  set t1 := upd s6 a (fun n => { n with mtDna := (get s a).mtDna }) with ht1
  set t2 := upd t1 b (fun n => { n with mtDna := (get s b).mtDna }) with ht2
  set t3 := upd t2 a (fun n => { n with yChrom := (get s a).yChrom }) with ht3
  set t4 := upd t3 b (fun n => { n with yChrom := (get s b).yChrom }) with ht4
  set t5 := upd t4 father (fun n => { n with yChrom := (get s father).yChrom })
    with ht5
  set t6 := upd t5 father (fun n => { n with children := (get s father).children })
    with ht6
  set t7 := upd t6 mother (fun n => { n with children := (get s mother).children })
    with ht7
  set t8 := upd t7 ftd (fun n => { n with children := tdFC }) with ht8
  set t9 := upd t8 mtd (fun n => { n with children := tdMC }) with ht9
  have hk1 : keys t1 = keys s := by rw [ht1]; simp [hk6]
  have hk2 : keys t2 = keys s := by rw [ht2]; simp [hk1]
  have hk3 : keys t3 = keys s := by rw [ht3]; simp [hk2]
  have hk4 : keys t4 = keys s := by rw [ht4]; simp [hk3]
  have hk5 : keys t5 = keys s := by rw [ht5]; simp [hk4]
  have hk6' : keys t6 = keys s := by rw [ht6]; simp [hk5]
  have hk7 : keys t7 = keys s := by rw [ht7]; simp [hk6']
  have hk8 : keys t8 = keys s := by rw [ht8]; simp [hk7]
  have hk9 : keys t9 = keys s := by rw [ht9]; simp [hk8]
  have F1 : ∀ x, get t1 x = { get s6 x with
      mtDna := if x = a then (get s a).mtDna else (get s6 x).mtDna } := by
    intro x
    rw [ht1, get_upd_cases _ (by rw [hk6]; exact hak)]
    by_cases hx : x = a
    · subst hx; simp
    · simp [hx]
  have F2 : ∀ x, get t2 x = { get s6 x with
      mtDna := if x = b then (get s b).mtDna
               else if x = a then (get s a).mtDna
               else (get s6 x).mtDna } := by
    intro x
    rw [ht2, get_upd_cases _ (by rw [hk1]; exact hbk), F1 x, F1 b]
    by_cases hx : x = b
    · subst hx; simp
    · simp [hx]
  have F3 : ∀ x, get t3 x = { get s6 x with
      mtDna := if x = b then (get s b).mtDna
               else if x = a then (get s a).mtDna
               else (get s6 x).mtDna,
      yChrom := if x = a then (get s a).yChrom else (get s6 x).yChrom } := by
    intro x
    rw [ht3, get_upd_cases _ (by rw [hk2]; exact hak), F2 x, F2 a]
    by_cases hx : x = a
    · subst hx; simp
    · simp [hx]
  have F4 : ∀ x, get t4 x = { get s6 x with
      mtDna := if x = b then (get s b).mtDna
               else if x = a then (get s a).mtDna
               else (get s6 x).mtDna,
      yChrom := if x = b then (get s b).yChrom
                else if x = a then (get s a).yChrom
                else (get s6 x).yChrom } := by
    intro x
    rw [ht4, get_upd_cases _ (by rw [hk3]; exact hbk), F3 x, F3 b]
    by_cases hx : x = b
    · subst hx; simp
    · simp [hx]
  have F5 : ∀ x, get t5 x = { get s6 x with
      mtDna := if x = b then (get s b).mtDna
               else if x = a then (get s a).mtDna
               else (get s6 x).mtDna,
      yChrom := if x = father then (get s father).yChrom
                else if x = b then (get s b).yChrom
                else if x = a then (get s a).yChrom
                else (get s6 x).yChrom } := by
    intro x
    rw [ht5, get_upd_cases _ (by rw [hk4]; exact hfk), F4 x, F4 father]
    by_cases hx : x = father
    · subst hx; simp [hfa, hfb]
    · simp [hx]
  have F6 : ∀ x, get t6 x = { get s6 x with
      mtDna := if x = b then (get s b).mtDna
               else if x = a then (get s a).mtDna
               else (get s6 x).mtDna,
      yChrom := if x = father then (get s father).yChrom
                else if x = b then (get s b).yChrom
                else if x = a then (get s a).yChrom
                else (get s6 x).yChrom,
      children := if x = father then (get s father).children
                  else (get s6 x).children } := by
    intro x
    rw [ht6, get_upd_cases _ (by rw [hk5]; exact hfk), F5 x, F5 father]
    by_cases hx : x = father
    · subst hx; simp [hfa, hfb]
    · simp [hx]
  have F7 : ∀ x, get t7 x = { get s6 x with
      mtDna := if x = b then (get s b).mtDna
               else if x = a then (get s a).mtDna
               else (get s6 x).mtDna,
      yChrom := if x = father then (get s father).yChrom
                else if x = b then (get s b).yChrom
                else if x = a then (get s a).yChrom
                else (get s6 x).yChrom,
      children := if x = mother then (get s mother).children
                  else if x = father then (get s father).children
                  else (get s6 x).children } := by
    intro x
    rw [ht7, get_upd_cases _ (by rw [hk6']; exact hmk), F6 x, F6 mother]
    by_cases hx : x = mother
    · subst hx; simp
    · simp [hx]
  have F8 : ∀ x, get t8 x = { get s6 x with
      mtDna := if x = b then (get s b).mtDna
               else if x = a then (get s a).mtDna
               else (get s6 x).mtDna,
      yChrom := if x = father then (get s father).yChrom
                else if x = b then (get s b).yChrom
                else if x = a then (get s a).yChrom
                else (get s6 x).yChrom,
      children := if x = ftd then tdFC
                  else if x = mother then (get s mother).children
                  else if x = father then (get s father).children
                  else (get s6 x).children } := by
    intro x
    rw [ht8, get_upd_cases _ (by rw [hk7]; exact hftdk), F7 x, F7 ftd]
    by_cases hx : x = ftd
    · subst hx; simp
    · simp [hx]
  have F9 : ∀ x, get t9 x = { get s6 x with
      mtDna := if x = b then (get s b).mtDna
               else if x = a then (get s a).mtDna
               else (get s6 x).mtDna,
      yChrom := if x = father then (get s father).yChrom
                else if x = b then (get s b).yChrom
                else if x = a then (get s a).yChrom
                else (get s6 x).yChrom,
      children := if x = mtd then tdMC
                  else if x = ftd then tdFC
                  else if x = mother then (get s mother).children
                  else if x = father then (get s father).children
                  else (get s6 x).children } := by
    intro x
    rw [ht9, get_upd_cases _ (by rw [hk8]; exact hmtdk), F8 x, F8 mtd]
    by_cases hx : x = mtd
    · subst hx; simp
    · simp [hx]
  have hunf : siblingRollback s6
      { a := a, b := b, aMt := (get s a).mtDna, bMt := (get s b).mtDna
      , aY := (get s a).yChrom, bY := (get s b).yChrom
      , fY := (get s father).yChrom, father := father, mother := mother
      , ftd := ftd, mtd := mtd, origFC := (get s father).children
      , origMC := (get s mother).children, tdFC := tdFC, tdMC := tdMC } =
      restoreLoop mtd true tdMC (restoreLoop ftd false tdFC t9) := rfl
  rw [hunf]
  apply state_ext_get
  · simp [hk9]
  · simp [hk9]; exact hwf.1
  · intro x
    rw [restoreLoop_get _ _ _ _ _ (fun c hc => by
          simp [hk9]; exact htdMCk c hc),
        restoreLoop_get _ _ _ _ _ (fun c hc => by rw [hk9]; exact htdFCk c hc),
        F9 x]
    apply NodeR.ext
    · -- female
      simp [hf6 x]
    · -- mtDna
      by_cases hxb : x = b
      · subst hxb; simp
      · by_cases hxa : x = a
        · subst hxa; simp [hxb]
        · simp [hxa, hxb, h6mt x hxa hxb]
    · -- yChrom
      by_cases hxf : x = father
      · subst hxf; simp
      · by_cases hxb : x = b
        · subst hxb; simp [hxf]
        · by_cases hxa : x = a
          · subst hxa; simp [hxf, hxb]
          · simp [hxa, hxb, hxf, h6y x hxa hxb hxf]
    · -- occupied
      simp [ho6 x]
    · -- original
      simp [hor6 x]
    · -- parents
      have hP : (get s6 x).parents =
          (if x ∈ L_M then slotted true mother
            (if x ∈ L_F then slotted false father (get s x).parents
             else (get s x).parents)
           else (if x ∈ L_F then slotted false father (get s x).parents
                 else (get s x).parents)) := by
        rw [hp6 x, hg2 x, hg1 x]
      by_cases hFtd : x ∈ tdFC
      · obtain ⟨⟨p1, p2⟩, hpr⟩ : ∃ pr, (get s x).parents = some pr := by
          cases hps : (get s x).parents with
          | none => exact absurd hps (hcohF x hFtd).1
          | some pr => exact ⟨pr, rfl⟩
        have hpr2 : p2 = ftd := by
          have := (hcohF x hFtd).2
          rwa [pparents, hpr, Option.getD_some] at this
        by_cases hMtd : x ∈ tdMC
        · have hpr1 : p1 = mtd := by
            have := (hcohM x hMtd).2
            rwa [pparents, hpr, Option.getD_some] at this
          subst hpr1; subst hpr2
          simp only [hP, hpr]
          by_cases hLMx : x ∈ L_M <;> by_cases hLFx : x ∈ L_F <;>
            simp [hLMx, hLFx, hFtd, hMtd, slotted]
        · have hLMx : x ∉ L_M := fun hc => hMtd (hLM x hc)
          subst hpr2
          simp only [hP, hpr]
          by_cases hLFx : x ∈ L_F <;>
            simp [hLMx, hLFx, hFtd, hMtd, slotted]
      · have hLFx : x ∉ L_F := fun hc => hFtd (hLF x hc)
        by_cases hMtd : x ∈ tdMC
        · obtain ⟨⟨p1, p2⟩, hpr⟩ : ∃ pr, (get s x).parents = some pr := by
            cases hps : (get s x).parents with
            | none => exact absurd hps (hcohM x hMtd).1
            | some pr => exact ⟨pr, rfl⟩
          have hpr1 : p1 = mtd := by
            have := (hcohM x hMtd).2
            rwa [pparents, hpr, Option.getD_some] at this
          subst hpr1
          simp only [hP, hpr]
          by_cases hLMx : x ∈ L_M <;>
            simp [hLMx, hLFx, hFtd, hMtd, slotted]
        · have hLMx : x ∉ L_M := fun hc => hMtd (hLM x hc)
          simp [hP, hLMx, hLFx, hFtd, hMtd]
    · -- children
      by_cases hxmtd : x = mtd
      · subst hxmtd; simp [htdMC]
      · by_cases hxftd : x = ftd
        · subst hxftd; simp [hxmtd, htdFC]
        · by_cases hxm : x = mother
          · subst hxm; simp [hxmtd, hxftd]
          · by_cases hxfa : x = father
            · subst hxfa; simp [hxmtd, hxftd, hxm]
            · have : (get s6 x).children = (get s x).children := by
                rw [h6 x, hg2 x, hg1 x]
                simp [hxm, hxfa]
              simp [hxmtd, hxftd, hxm, hxfa, this]

@[simp] theorem keys_migrateLoop (c : Id) (f : Bool) (L : List Id) (s : State) :
    keys (migrateLoop c f L s) = keys s := by
  rw [migrateLoop_eq_reparentLoop]; simp

theorem migrateLoop_mt (c : Id) (f : Bool) (L : List Id) (s : State)
    (hc : c ∈ keys s) (hL : ∀ x ∈ L, x ∈ keys s) (x : Id) :
    (get (migrateLoop c f L s) x).mtDna = (get s x).mtDna := by
  rw [migrateLoop_eq_reparentLoop, reparentLoop_get _ _ _ _ _ hc hL]

theorem migrateLoop_y (c : Id) (f : Bool) (L : List Id) (s : State)
    (hc : c ∈ keys s) (hL : ∀ x ∈ L, x ∈ keys s) (x : Id) :
    (get (migrateLoop c f L s) x).yChrom = (get s x).yChrom := by
  rw [migrateLoop_eq_reparentLoop, reparentLoop_get _ _ _ _ _ hc hL]

theorem searchDesc_direct {s : State} {n t : Id} (h : t ∈ (get s n).children)
    {ts : List Id} (hts : t ∈ ts) (fuel : Nat) :
    searchDesc s (fuel + 1) n ts = true := by
  unfold searchDesc
  rw [List.any_eq_true]
  exact ⟨t, h, by simp [hts]⟩

/-- The merged `(mother, father)` choice always takes the mother from a
mother slot and the father from a father slot (given the sex invariant). -/
theorem sibMergedParents_spec {s : State} (hwf : WF s) {a b am af bm bf mo fa : Id}
    (ha : (get s a).parents = some (am, af)) (hb : (get s b).parents = some (bm, bf))
    (hmp : sibMergedParents s a b = some (mo, fa)) :
    (mo = am ∨ mo = bm) ∧ (fa = af ∨ fa = bf) ∧
    (get s mo).female = true ∧ (get s fa).female = false := by
  have hsexa := sex_parents hwf ha
  have hsexb := sex_parents hwf hb
  unfold sibMergedParents at hmp
  simp only [parentsList, ha, hb, pparents, Option.getD_some] at hmp
  set L := (([am, af] ++ [bm, bf]).filter (fun i => (get s i).occupied)).dedup
    with hL
  have hsub : ∀ x ∈ L, x = am ∨ x = af ∨ x = bm ∨ x = bf := by
    intro x hx
    rw [hL, List.mem_dedup] at hx
    have := List.mem_of_mem_filter hx
    simpa using this
  have hfemCase : ∀ x, (x = am ∨ x = af ∨ x = bm ∨ x = bf) →
      (get s x).female = true → x = am ∨ x = bm := by
    intro x hx hf
    rcases hx with rfl | rfl | rfl | rfl
    · exact Or.inl rfl
    · rw [hsexa.2] at hf; exact Bool.noConfusion hf
    · exact Or.inr rfl
    · rw [hsexb.2] at hf; exact Bool.noConfusion hf
  have hmaleCase : ∀ x, (x = am ∨ x = af ∨ x = bm ∨ x = bf) →
      (get s x).female = false → x = af ∨ x = bf := by
    intro x hx hf
    rcases hx with rfl | rfl | rfl | rfl
    · rw [hsexa.1] at hf; exact Bool.noConfusion hf
    · exact Or.inl rfl
    · rw [hsexb.1] at hf; exact Bool.noConfusion hf
    · exact Or.inr rfl
  have hfaPick : ∀ (c : Bool),
      (if ¬ c = true then af else bf) = af ∨ (if ¬ c = true then af else bf) = bf := by
    intro c; by_cases hc : c = true <;> simp [hc]
  have hfaPickF : ∀ (c : Bool), (get s (if ¬ c = true then af else bf)).female = false := by
    intro c; by_cases hc : c = true <;> simp [hc, hsexa.2, hsexb.2]
  clear_value L
  match L, hsub with
  | [], _ =>
    simp only [] at hmp
    obtain ⟨h1, h2⟩ := Prod.mk.injEq .. ▸ Option.some.inj hmp
    subst h1
    constructor
    · exact Or.inl rfl
    refine ⟨?_, hsexa.1, ?_⟩
    · rw [← h2]; exact hfaPick _
    · rw [← h2]; exact hfaPickF _
  | [x], hsub =>
    simp only [] at hmp
    have hx4 := hsub x (by simp)
    by_cases hxf : (get s x).female = true
    · rw [if_pos hxf] at hmp
      obtain ⟨h1, h2⟩ := Prod.mk.injEq .. ▸ Option.some.inj hmp
      subst h1
      refine ⟨hfemCase x hx4 hxf, ?_, hxf, ?_⟩
      · rw [← h2]; exact hfaPick _
      · rw [← h2]; exact hfaPickF _
    · rw [if_neg hxf] at hmp
      obtain ⟨h1, h2⟩ := Prod.mk.injEq .. ▸ Option.some.inj hmp
      subst h2
      subst h1
      exact ⟨Or.inl rfl, hmaleCase x hx4 (Bool.not_eq_true _ ▸ hxf),
             hsexa.1, Bool.not_eq_true _ ▸ hxf⟩
  | [x, y], hsub =>
    simp only [] at hmp
    have hx4 := hsub x (by simp)
    have hy4 := hsub y (by simp)
    by_cases hxy : (get s x).female = (get s y).female
    · rw [if_pos hxy] at hmp
      exact Option.noConfusion hmp
    · rw [if_neg hxy] at hmp
      obtain ⟨h1, h2⟩ := Prod.mk.injEq .. ▸ Option.some.inj hmp
      by_cases hxf : (get s x).female = true
      · have hyf : (get s y).female = false := by
          cases hyv : (get s y).female
          · rfl
          · exact absurd (hxf.trans hyv.symm) hxy
        rw [if_pos hxf] at h1
        rw [if_neg (by rw [hyf]; exact Bool.false_ne_true)] at h2
        subst h1; subst h2
        exact ⟨hfemCase x hx4 hxf, hmaleCase y hy4 hyf, hxf, hyf⟩
      · have hxf' : (get s x).female = false := Bool.not_eq_true _ ▸ hxf
        have hyf : (get s y).female = true := by
          cases hyv : (get s y).female
          · exact absurd (hxf'.trans hyv.symm) hxy
          · rfl
        rw [if_neg (by rw [hxf']; exact Bool.false_ne_true)] at h1
        rw [if_pos hyf] at h2
        subst h1; subst h2
        exact ⟨hfemCase y hy4 hyf, hmaleCase x hx4 hxf', hyf, hxf'⟩
  | x :: y :: z :: rest, _ =>
    simp only [] at hmp
    exact Option.noConfusion hmp

theorem migrateLoop_nil (c : Id) (f : Bool) (s : State) :
    migrateLoop c f [] s = s := rfl

/-- Any commit leaf of `_assign_sibling` rolls back exactly: the state after
the sibling-marker section of the migrated state, fed to the rollback code
with the recorded originals, is the original state.  `L_F`/`L_M` are the
actual migration lists (the superseded parent's children, or `[]` when the
merge kept that parent). -/
theorem sibCommit_restores
    (s : State) (a b father mother ftd mtd : Id) (L_F L_M : List Id)
    (hwf : WF s) (hab : a ≠ b) (hfa : father ≠ a) (hfb : father ≠ b)
    (hak : a ∈ keys s) (hbk : b ∈ keys s) (hfk : father ∈ keys s)
    (hmk : mother ∈ keys s) (hftdk : ftd ∈ keys s) (hmtdk : mtd ∈ keys s)
    (hftdF : (get s ftd).female = false) (hmtdF : (get s mtd).female = true)
    (hLF : L_F = (get s ftd).children ∨ L_F = [])
    (hLM : L_M = (get s mtd).children ∨ L_M = [])
    (s2 : State)
    (hs2 : s2 = migrateLoop mother true L_M (migrateLoop father false L_F s)) :
    siblingRollback (siblingMarkers s2 a b father)
      { a := a, b := b
      , aMt := (get s2 a).mtDna
      , bMt := (get s2 b).mtDna
      , aY := (get s2 a).yChrom
      , bY := (get s2 b).yChrom
      , fY := (get (sibMarkY s2 a b) father).yChrom
      , father := father, mother := mother, ftd := ftd, mtd := mtd
      , origFC := (get s father).children, origMC := (get s mother).children
      , tdFC := (get s ftd).children, tdMC := (get s mtd).children } = s := by
  subst hs2
  have hLFsub : ∀ x ∈ L_F, x ∈ (get s ftd).children := by
    rcases hLF with rfl | rfl
    · exact fun x hx => hx
    · exact fun x hx => absurd hx (List.not_mem_nil x)
  have hLMsub : ∀ x ∈ L_M, x ∈ (get s mtd).children := by
    rcases hLM with rfl | rfl
    · exact fun x hx => hx
    · exact fun x hx => absurd hx (List.not_mem_nil x)
  have hLFk : ∀ x ∈ L_F, x ∈ keys s := fun x hx =>
    closed_children hwf hftdk x (hLFsub x hx)
  have hLMk : ∀ x ∈ L_M, x ∈ keys s := fun x hx =>
    closed_children hwf hmtdk x (hLMsub x hx)
  have hcohF : ∀ x ∈ (get s ftd).children,
      (get s x).parents ≠ none ∧ (pparents s x).2 = ftd := fun x hx =>
    ⟨(coh_child hwf hftdk hx).1, (coh_child hwf hftdk hx).2.2 hftdF⟩
  have hcohM : ∀ x ∈ (get s mtd).children,
      (get s x).parents ≠ none ∧ (pparents s x).1 = mtd := fun x hx =>
    ⟨(coh_child hwf hmtdk hx).1, (coh_child hwf hmtdk hx).2.1 hmtdF⟩
  set S1 := migrateLoop father false L_F s with hS1
  set S2 := migrateLoop mother true L_M S1 with hS2
  have hkS2 : keys S2 = keys s := by rw [hS2, hS1]; simp
  have hakS2 : a ∈ keys S2 := by rw [hkS2]; exact hak
  have hbkS2 : b ∈ keys S2 := by rw [hkS2]; exact hbk
  have hfkS2 : father ∈ keys S2 := by rw [hkS2]; exact hfk
  have hmkS1 : mother ∈ keys S1 := by rw [hS1]; simp [hmk]
  have hLMkS1 : ∀ x ∈ L_M, x ∈ keys S1 := fun x hx => by
    rw [hS1]; simp [hLMk x hx]
  have hmt : ∀ x, (get S2 x).mtDna = (get s x).mtDna := fun x => by
    rw [hS2, migrateLoop_mt mother true L_M S1 hmkS1 hLMkS1 x, hS1,
        migrateLoop_mt father false L_F s hfk hLFk x]
  have hy : ∀ x, (get S2 x).yChrom = (get s x).yChrom := fun x => by
    rw [hS2, migrateLoop_y mother true L_M S1 hmkS1 hLMkS1 x, hS1,
        migrateLoop_y father false L_F s hfk hLFk x]
  have hfY : (get (sibMarkY S2 a b) father).yChrom = (get s father).yChrom := by
    rw [sibMarkY_father_y S2 a b father hakS2 hbkS2 hfa hfb]
    exact hy father
  rw [hmt a, hmt b, hy a, hy b, hfY]
  have h6 : ∀ x, get (siblingMarkers S2 a b father) x =
      { get S2 x with
        mtDna := (get (siblingMarkers S2 a b father) x).mtDna,
        yChrom := (get (siblingMarkers S2 a b father) x).yChrom } := fun x =>
    siblingMarkers_get S2 a b father hakS2 hbkS2 hfkS2 x
  have h6mt : ∀ x, x ≠ a → x ≠ b →
      (get (siblingMarkers S2 a b father) x).mtDna = (get s x).mtDna :=
    fun x hxa hxb => by
      rw [siblingMarkers_mt_other S2 a b father hakS2 hbkS2 hfkS2 x hxa hxb]
      exact hmt x
  have h6y : ∀ x, x ≠ a → x ≠ b → x ≠ father →
      (get (siblingMarkers S2 a b father) x).yChrom = (get s x).yChrom :=
    fun x hxa hxb hxf => by
      rw [siblingMarkers_y_other S2 a b father hakS2 hbkS2 hfkS2 x hxa hxb hxf]
      exact hy x
  exact siblingRollback_restores s a b father mother ftd mtd
    ((get s ftd).children) ((get s mtd).children) L_F L_M hwf hab hfa hfb
    hak hbk hfk hmk hftdk hmtdk rfl rfl hLFsub hLMsub hcohF hcohM
    (siblingMarkers S2 a b father) (by simp [hkS2]) h6 h6mt h6y

set_option maxHeartbeats 1000000 in
/-- A full sibling transaction round trip restores the original state. -/
theorem runSibling_restores (s : State) (a b : Id) (hwf : WF s) (hacy : Acyclic s)
    {am af bm bf : Id}
    (hpa : (get s a).parents = some (am, af))
    (hpb : (get s b).parents = some (bm, bf)) :
    (runSibling s a b).mid = s := by
  have hak : a ∈ keys s := mem_keys_of_parents (by simp [hpa])
  have hbk : b ∈ keys s := mem_keys_of_parents (by simp [hpb])
  have hamk := (closed_parents hwf hpa).1
  have hafk := (closed_parents hwf hpa).2
  have hbmk := (closed_parents hwf hpb).1
  have hbfk := (closed_parents hwf hpb).2
  have hsexa := sex_parents hwf hpa
  have hsexb := sex_parents hwf hpb
  simp only [runSibling, assignSibling, pparents, hpa, hpb, Option.getD_some]
  by_cases hg1 : searchDesc s (descFuel s) a [b] = true ∨
      searchDesc s (descFuel s) b [a] = true
  · rw [if_pos hg1]
  rw [if_neg hg1]
  by_cases hg2 : am = bm ∧ af = bf
  · rw [if_pos hg2]
  rw [if_neg hg2]
  cases hmp : sibMergedParents s a b with
  | none => rfl
  | some mf =>
    obtain ⟨mother, father⟩ := mf
    simp only []
    have hspec := sibMergedParents_spec hwf hpa hpb hmp
    have hfk : father ∈ keys s := by
      rcases hspec.2.1 with h | h
      · rw [h]; exact hafk
      · rw [h]; exact hbfk
    have hmk : mother ∈ keys s := by
      rcases hspec.1 with h | h
      · rw [h]; exact hamk
      · rw [h]; exact hbmk
    have hab : a ≠ b := by
      intro h
      subst h
      rw [hpa] at hpb
      obtain ⟨h1, h2⟩ := Prod.mk.injEq .. ▸ Option.some.inj hpb
      exact hg2 ⟨h1, h2⟩
    have hfa : father ≠ a := by
      intro he
      rcases hspec.2.1 with h | h
      · have h2 := (cohR_parents hwf hpa).2
        rw [← h, he] at h2
        exact hacy a ⟨a, h2, Relation.ReflTransGen.refl⟩
      · have h2 := (cohR_parents hwf hpb).2
        rw [← h, he] at h2
        refine hg1 (Or.inl ?_)
        unfold descFuel
        exact searchDesc_direct h2 (by simp) s.length
    have hfb : father ≠ b := by
      intro he
      rcases hspec.2.1 with h | h
      · have h2 := (cohR_parents hwf hpa).2
        rw [← h, he] at h2
        refine hg1 (Or.inr ?_)
        unfold descFuel
        exact searchDesc_direct h2 (by simp) s.length
      · have h2 := (cohR_parents hwf hpb).2
        rw [← h, he] at h2
        exact hacy b ⟨b, h2, Relation.ReflTransGen.refl⟩
    split_ifs
    all_goals try rfl
    all_goals simp only []
    · exact sibCommit_restores s a b father mother af am _ _ hwf hab hfa hfb
        hak hbk hfk hmk hafk hamk hsexa.2 hsexa.1 (Or.inl rfl) (Or.inl rfl) _ rfl
    · exact sibCommit_restores s a b father mother af bm _ _ hwf hab hfa hfb
        hak hbk hfk hmk hafk hbmk hsexa.2 hsexb.1 (Or.inl rfl) (Or.inl rfl) _ rfl
    · exact sibCommit_restores s a b father mother af bm _ _ hwf hab hfa hfb
        hak hbk hfk hmk hafk hbmk hsexa.2 hsexb.1 (Or.inl rfl) (Or.inr rfl) _
        (migrateLoop_nil mother true _).symm
    · exact sibCommit_restores s a b father mother bf am _ _ hwf hab hfa hfb
        hak hbk hfk hmk hbfk hamk hsexb.2 hsexa.1 (Or.inl rfl) (Or.inl rfl) _ rfl
    · exact sibCommit_restores s a b father mother bf am _ _ hwf hab hfa hfb
        hak hbk hfk hmk hbfk hamk hsexb.2 hsexa.1 (Or.inr rfl) (Or.inl rfl) _
        (congrArg (migrateLoop mother true ((get s am).children))
          (migrateLoop_nil father false s).symm)
    · exact sibCommit_restores s a b father mother bf bm _ _ hwf hab hfa hfb
        hak hbk hfk hmk hbfk hbmk hsexb.2 hsexb.1 (Or.inl rfl) (Or.inl rfl) _ rfl
    · exact sibCommit_restores s a b father mother bf bm _ _ hwf hab hfa hfb
        hak hbk hfk hmk hbfk hbmk hsexb.2 hsexb.1 (Or.inr rfl) (Or.inl rfl) _
        (congrArg (migrateLoop mother true ((get s bm).children))
          (migrateLoop_nil father false s).symm)
    · exact sibCommit_restores s a b father mother bf bm _ _ hwf hab hfa hfb
        hak hbk hfk hmk hbfk hbmk hsexb.2 hsexb.1 (Or.inl rfl) (Or.inr rfl) _
        (migrateLoop_nil mother true _).symm
    · exact sibCommit_restores s a b father mother bf bm _ _ hwf hab hfa hfb
        hak hbk hfk hmk hbfk hbmk hsexb.2 hsexb.1 (Or.inr rfl) (Or.inr rfl) _
        (by rw [migrateLoop_nil, migrateLoop_nil])

/-! ### Claim C1 -/

/-- If a measure strictly drops along every parent→child edge, the edge
relation has no directed cycle. -/
theorem acyclic_of_measure (s : State) (mu : Id → Nat)
    (h : ∀ n c, edge s n c → mu c < mu n) : Acyclic s := by
  have hle : ∀ x y, Relation.ReflTransGen (edge s) x y → mu y ≤ mu x := by
    intro x y hxy
    induction hxy with
    | refl => exact le_refl _
    | tail hstep hlast ih => exact le_of_lt (lt_of_lt_of_le (h _ _ hlast) ih)
  rintro n ⟨m, he, hr⟩
  exact absurd (lt_of_le_of_lt (hle m n hr) (h n m he)) (lt_irrefl _)

/-- A five-node family used to instantiate C1: an occupied father `F` with
two sons `A`, `B` by two unoccupied mothers `MA`, `MB`. -/
def exC1 : State :=
  [ ("MA", { female := true, mtDna := some "mt1", yChrom := none
           , occupied := false, original := false, parents := none
           , children := ["A"] })
  , ("MB", { female := true, mtDna := none, yChrom := none
           , occupied := false, original := false, parents := none
           , children := ["B"] })
  , ("F",  { female := false, mtDna := none, yChrom := some "Y1"
           , occupied := true, original := true, parents := none
           , children := ["A", "B"] })
  , ("A",  { female := false, mtDna := some "mt1", yChrom := none
           , occupied := true, original := false
           , parents := some ("MA", "F"), children := [] })
  , ("B",  { female := false, mtDna := none, yChrom := none
           , occupied := true, original := false
           , parents := some ("MB", "F"), children := [] }) ]

/-- C1: a parent-child (`_assign_parental`) or sibling (`_assign_sibling`)
transaction that runs to its rollback leaves the graph exactly as it was,
for committed and rejected outcomes alike: on a well-formed acyclic state
whose participants carry parents tuples, the state after the whole `with`
block equals the state before it in every field of every node. -/
theorem claim_C1 (s : State) (c p a b : Id) (hwf : WF s) (hacy : Acyclic s)
    {cm cf pm pf am af bm bf : Id}
    (hc : (get s c).parents = some (cm, cf))
    (hp : (get s p).parents = some (pm, pf))
    (hpa : (get s a).parents = some (am, af))
    (hpb : (get s b).parents = some (bm, bf)) :
    (runParental s c p).mid = s ∧ (runSibling s a b).mid = s :=
  ⟨runParental_restores s c p hwf hc hp,
   runSibling_restores s a b hwf hacy hpa hpb⟩

theorem claim_C1_witness :
    (WF exC1 ∧ Acyclic exC1 ∧
     (get exC1 "A").parents = some ("MA", "F") ∧
     (get exC1 "B").parents = some ("MB", "F")) ∧
    (runParental exC1 "A" "B").mid = exC1 ∧
    (runSibling exC1 "A" "B").mid = exC1 := by
  have hacy : Acyclic exC1 := by
    refine acyclic_of_measure exC1 (fun i => if i = "A" ∨ i = "B" then 0 else 1) ?_
    intro n c he
    have hn : n ∈ keys exC1 := by
      by_contra hn
      rw [edge, get_eq_dflt_of_not_mem hn] at he
      exact absurd he (List.not_mem_nil c)
    have hn5 : n = "MA" ∨ n = "MB" ∨ n = "F" ∨ n = "A" ∨ n = "B" := by
      simpa [exC1, keys] using hn
    rcases hn5 with rfl | rfl | rfl | rfl | rfl
    · have hc1 : c ∈ ["A"] := by
        have : (get exC1 "MA").children = ["A"] := rfl
        rw [edge, this] at he; exact he
      simp at hc1; subst hc1; decide
    · have hc1 : c ∈ ["B"] := by
        have : (get exC1 "MB").children = ["B"] := rfl
        rw [edge, this] at he; exact he
      simp at hc1; subst hc1; decide
    · have hc1 : c ∈ ["A", "B"] := by
        have : (get exC1 "F").children = ["A", "B"] := rfl
        rw [edge, this] at he; exact he
      rcases (by simpa using hc1 : c = "A" ∨ c = "B") with rfl | rfl <;> decide
    · have hc1 : c ∈ ([] : List Id) := by
        have : (get exC1 "A").children = [] := rfl
        rw [edge, this] at he; exact he
      exact absurd hc1 (List.not_mem_nil c)
    · have hc1 : c ∈ ([] : List Id) := by
        have : (get exC1 "B").children = [] := rfl
        rw [edge, this] at he; exact he
      exact absurd hc1 (List.not_mem_nil c)
  have hwf : WF exC1 := by
    unfold WF WFNodup WFClosed WFCoh WFCohR WFSex
    decide
  exact ⟨⟨hwf, hacy, rfl, rfl⟩,
    claim_C1 exC1 "A" "B" "A" "B" hwf hacy rfl rfl rfl rfl⟩

/-! ### Claims C6 and C3 -/

/-- Two full siblings `C`, `P` under mother `M` and father `F`: the input on
which `_assign_parental`'s first guard fires. -/
def exC6 : State :=
  [ ("M", { female := true, mtDna := some "mt0", yChrom := none
          , occupied := true, original := true, parents := none
          , children := ["C", "P"] })
  , ("F", { female := false, mtDna := none, yChrom := some "Y0"
          , occupied := true, original := true, parents := none
          , children := ["C", "P"] })
  , ("C", { female := false, mtDna := none, yChrom := none
          , occupied := true, original := false
          , parents := some ("M", "F"), children := [] })
  , ("P", { female := false, mtDna := none, yChrom := none
          , occupied := true, original := false
          , parents := some ("M", "F"), children := [] }) ]

/-- C6 (corrected): `_assign_parental` leaves the graph untouched on both
already-satisfied guards, but only the parent-already-assigned case reports
success: when the child and the proposed parent carry the identical parents
pair the transaction yields `False` (rejection), and when the proposed
parent is one of the child's current parents (and the pairs are not
identical, so the first guard does not intercept) it yields `True`. -/
theorem claim_C6 (s : State) (c p : Id) :
    ((pparents s c).1 = (pparents s p).1 ∧ (pparents s c).2 = (pparents s p).2 →
      runParental s c p = ⟨false, s⟩) ∧
    (¬ ((pparents s c).1 = (pparents s p).1 ∧
        (pparents s c).2 = (pparents s p).2) →
     (p = (pparents s c).1 ∨ p = (pparents s c).2) →
      runParental s c p = ⟨true, s⟩) := by
  constructor
  · intro h
    simp only [runParental, assignParental]
    rw [if_pos h]
  · intro hne hp
    simp only [runParental, assignParental]
    rw [if_neg hne, if_pos hp]

/-- C6 counterexample: on two full siblings the claim's case (1) promises
success, but the transaction rejects (`yield False`). -/
theorem claim_C6_counterexample :
    (get exC6 "C").parents = (get exC6 "P").parents ∧
    (runParental exC6 "C" "P").ok = false := by decide

theorem claim_C6_witness :
    runParental exC6 "C" "P" = ⟨false, exC6⟩ ∧
    runParental exC6 "C" "M" = ⟨true, exC6⟩ :=
  ⟨(claim_C6 exC6 "C" "P").1 (by decide),
   (claim_C6 exC6 "C" "M").2 (by decide) (by decide)⟩

/-- A committing input for `_assign_parental("A", "P")`: the unoccupied
original mother `OM` has children `[A, B]`, and the incoming parent `P` is
a female with a known maternal marker.  As after extrapolation, `P`
carries a (filler) parents tuple `(PM, PF)`, so every parents tuple the
transaction indexes — `child.parents` at lines 329-330 and
`parent.parents` at lines 332 and 340 — is present, and the state is
well-formed. -/
def exC3 : State :=
  [ ("OM", { female := true, mtDna := none, yChrom := none
           , occupied := false, original := false, parents := none
           , children := ["A", "B"] })
  , ("OF", { female := false, mtDna := none, yChrom := none
           , occupied := true, original := true, parents := none
           , children := ["A", "B"] })
  , ("PM", { female := true, mtDna := some "M1", yChrom := none
           , occupied := false, original := false, parents := none
           , children := ["P"] })
  , ("PF", { female := false, mtDna := none, yChrom := none
           , occupied := false, original := false, parents := none
           , children := ["P"] })
  , ("P",  { female := true, mtDna := some "M1", yChrom := none
           , occupied := true, original := true
           , parents := some ("PM", "PF"), children := [] })
  , ("A",  { female := false, mtDna := none, yChrom := none
           , occupied := true, original := false
           , parents := some ("OM", "OF"), children := [] })
  , ("B",  { female := false, mtDna := none, yChrom := none
           , occupied := true, original := false
           , parents := some ("OM", "OF"), children := [] }) ]

/-- C3 (code bug): the marker-propagation block of `_assign_parental` reads
and writes the loop variable `child`, which the re-parenting loop has
shadowed: on this well-formed committing assignment of parent `P`
(maternal marker `M1`) to child `A` (marker unknown), the child's marker
is still unknown while the commit is in effect — the marker went to `B`,
the last child of the replaced parent. -/
theorem claim_C3 :
    WF exC3 ∧
    (assignParental exC3 "A" "P").1.ok = true ∧
    (get exC3 "A").mtDna = none ∧
    (get exC3 "P").mtDna = some "M1" ∧
    (get (assignParental exC3 "A" "P").1.mid "A").mtDna = none ∧
    (get (assignParental exC3 "A" "P").1.mid "B").mtDna = some "M1" := by
  unfold WF WFNodup WFClosed WFCoh WFCohR WFSex
  decide

/-! ### Claim C4 -/

/-- One node's turn in the marker backfill at the end of `_prune_graphs`
(`pedigree.py` 750-756): `if node.y_chrom is None: for child in
node.children: if not child.female: node.y_chrom = child.y_chrom`. -/
def pruneBackfillNode (s : State) (i : Id) : State :=
  if (get s i).yChrom = none then
    (get s i).children.foldl (fun st ch =>
      if ¬ (get st ch).female then
        upd st i (fun n => { n with yChrom := (get st ch).yChrom })
      else st) s
  else s

/-- The whole backfill loop, `for node in graph`, in node-list order. -/
def pruneBackfill (s : State) : State :=
  (keys s).foldl (fun st i => pruneBackfillNode st i) s

/-- A mother `M` with a son `S` whose paternal marker is known. -/
def exC4 : State :=
  [ ("M", { female := true, mtDna := some "mt0", yChrom := none
          , occupied := true, original := true, parents := none
          , children := ["S"] })
  , ("F", { female := false, mtDna := none, yChrom := some "Y1"
          , occupied := true, original := true, parents := none
          , children := ["S"] })
  , ("S", { female := false, mtDna := some "mt0", yChrom := some "Y1"
          , occupied := true, original := false
          , parents := some ("M", "F"), children := [] }) ]

/-- C4 (code bug): the backfill loop of `_prune_graphs` copies a son's
paternal marker into any parent whose marker is unknown, with no sex
check: after pruning, the female node `M` carries `y_chrom = Y1`,
contradicting the invariant that females never hold a paternal marker. -/
theorem claim_C4 :
    (get exC4 "M").female = true ∧
    (get exC4 "M").yChrom = none ∧
    (get (pruneBackfill exC4) "M").female = true ∧
    (get (pruneBackfill exC4) "M").yChrom = some "Y1" := by decide

/-! ### Claim C5 -/

/-- `Node.get_first_degree_rel` (`pedigree.py` 122-142): parents, then
children, then the siblings recorded under the mother that share the
father slot.  Reads of an absent parents tuple use the placeholder pair,
as everywhere in this embedding. -/
def firstDegreeRel (s : State) (i : Id) : List Id :=
  (match (get s i).parents with
   | some (m, f) => [m, f]
   | none => []) ++
  (get s i).children ++
  (match (get s i).parents with
   | some (m, _) =>
       (get s m).children.filter
         (fun c => (pparents s c).2 = (pparents s i).2 ∧ c ≠ i)
   | none => [])

/-- `Node.get_second_degree_rel` (`pedigree.py` 144-158).  Python iterates
`set(...)`; membership in the result does not depend on that order, and the
sets are realized as deduplicated lists. -/
def secondDegreeRel (s : State) (i : Id) : List Id :=
  let first := (firstDegreeRel s i).dedup
  first.flatMap (fun nd =>
    (firstDegreeRel s nd).dedup.filter
      (fun second => second ≠ i ∧ second ∉ first ∧ second ∉ parentsList s nd))

/-- A three-generation family: `N` with parents `M`, `F`, and both pairs of
grandparents. -/
def exC5 : State :=
  [ ("GM", { female := true, mtDna := none, yChrom := none
           , occupied := true, original := true, parents := none
           , children := ["M"] })
  , ("GF", { female := false, mtDna := none, yChrom := none
           , occupied := true, original := true, parents := none
           , children := ["M"] })
  , ("GM2", { female := true, mtDna := none, yChrom := none
            , occupied := true, original := true, parents := none
            , children := ["F"] })
  , ("GF2", { female := false, mtDna := none, yChrom := none
            , occupied := true, original := true, parents := none
            , children := ["F"] })
  , ("M", { female := true, mtDna := none, yChrom := none
          , occupied := true, original := true
          , parents := some ("GM", "GF"), children := ["N"] })
  , ("F", { female := false, mtDna := none, yChrom := none
          , occupied := true, original := true
          , parents := some ("GM2", "GF2"), children := ["N"] })
  , ("N", { female := false, mtDna := none, yChrom := none
          , occupied := true, original := true
          , parents := some ("M", "F"), children := [] }) ]

/-- C5 (corrected): the `second not in node.parents` filter of
`get_second_degree_rel` removes exactly the grandparents: whenever a
candidate `g` is first-degree-related to members of `n`'s first-degree set
only as their parent (as a grandparent is in a tree), `g` is absent from
the computed second-degree set — the stage never sees grandparents as
degree-2 relatives. -/
theorem claim_C5 (s : State) (n g : Id)
    (h : ∀ f ∈ (firstDegreeRel s n).dedup,
      g ∈ (firstDegreeRel s f).dedup → g ∈ parentsList s f) :
    g ∉ secondDegreeRel s n := by
  intro hmem
  unfold secondDegreeRel at hmem
  rw [List.mem_flatMap] at hmem
  obtain ⟨nd, hnd, hg⟩ := hmem
  rw [List.mem_filter] at hg
  obtain ⟨hlayer, hcond⟩ := hg
  simp only [decide_eq_true_eq] at hcond
  exact hcond.2.2 (h nd hnd hlayer)

/-- C5 counterexample: in the three-generation family the computed
second-degree set of `N` is empty — the grandparents are filtered out. -/
theorem claim_C5_counterexample :
    (get exC5 "M").parents = some ("GM", "GF") ∧
    (get exC5 "N").parents = some ("M", "F") ∧
    secondDegreeRel exC5 "N" = [] := by decide

theorem claim_C5_witness : "GM" ∉ secondDegreeRel exC5 "N" :=
  claim_C5 exC5 "N" "GM" (by decide)

/-! ### Claim C7 -/

/-- If one sibling is male with a known paternal marker and the merged
father's marker differs from it (an unknown father marker included), the
sibling transaction rejects before mutating anything. -/
theorem sibMarkerGuard_reject (s : State) (a b mo fa : Id) (v : String)
    (hg1 : ¬ (searchDesc s (descFuel s) a [b] = true ∨
              searchDesc s (descFuel s) b [a] = true))
    (hg2 : ¬ ((pparents s a).1 = (pparents s b).1 ∧
              (pparents s a).2 = (pparents s b).2))
    (hmp : sibMergedParents s a b = some (mo, fa))
    (hmale : (get s a).female = false) (hay : (get s a).yChrom = some v)
    (hneq : (get s fa).yChrom ≠ some v) :
    assignSibling s a b = (⟨false, s⟩, none) := by
  have hA : ¬ (get s a).female = true ∧ (get s a).yChrom ≠ none ∧
      (get s a).yChrom ≠ (get s fa).yChrom :=
    ⟨by simp [hmale], by simp [hay],
     by rw [hay]; exact fun hc => hneq hc.symm⟩
  simp only [assignSibling]
  rw [if_neg hg1, if_neg hg2, hmp]
  simp only []
  split_ifs
  all_goals first
  | rfl
  | exact absurd (Or.inl hA) (by assumption)

/-- Sibling input whose merged father `FA` has an unknown paternal marker
while the male sibling `A` carries a known one. -/
def exC7 : State :=
  [ ("MA", { female := true, mtDna := none, yChrom := none
           , occupied := false, original := false, parents := none
           , children := ["A"] })
  , ("FA", { female := false, mtDna := none, yChrom := none
           , occupied := true, original := true, parents := none
           , children := ["A"] })
  , ("MB", { female := true, mtDna := none, yChrom := none
           , occupied := false, original := false, parents := none
           , children := ["B"] })
  , ("FB", { female := false, mtDna := none, yChrom := none
           , occupied := false, original := false, parents := none
           , children := ["B"] })
  , ("A", { female := false, mtDna := none, yChrom := some "Y1"
          , occupied := true, original := true
          , parents := some ("MA", "FA"), children := [] })
  , ("B", { female := true, mtDna := none, yChrom := none
          , occupied := true, original := true
          , parents := some ("MB", "FB"), children := [] }) ]

/-- The same family with the father's marker known and matching. -/
def exC7b : State :=
  [ ("MA", { female := true, mtDna := none, yChrom := none
           , occupied := false, original := false, parents := none
           , children := ["A"] })
  , ("FA", { female := false, mtDna := none, yChrom := some "Y1"
           , occupied := true, original := true, parents := none
           , children := ["A"] })
  , ("MB", { female := true, mtDna := none, yChrom := none
           , occupied := false, original := false, parents := none
           , children := ["B"] })
  , ("FB", { female := false, mtDna := none, yChrom := none
           , occupied := false, original := false, parents := none
           , children := ["B"] })
  , ("A", { female := false, mtDna := none, yChrom := some "Y1"
          , occupied := true, original := true
          , parents := some ("MA", "FA"), children := [] })
  , ("B", { female := true, mtDna := none, yChrom := none
          , occupied := true, original := true
          , parents := some ("MB", "FB"), children := [] }) ]

/-- C7 (corrected): the paternal-marker check of `_assign_sibling` compares
a known male sibling's marker against the merged father's marker with
`!=`, so an unknown (None) father marker is treated as incompatible and
the transaction rejects — not accepts — that pairing; consequently on any
run that commits, a known male sibling's marker already equals the merged
father's marker in the entry state, and the father-adoption branch never
has a known son marker to adopt when its own marker is unknown. -/
theorem claim_C7 (s : State) (a b mo fa : Id) (v : String)
    (hg1 : ¬ (searchDesc s (descFuel s) a [b] = true ∨
              searchDesc s (descFuel s) b [a] = true))
    (hg2 : ¬ ((pparents s a).1 = (pparents s b).1 ∧
              (pparents s a).2 = (pparents s b).2))
    (hmp : sibMergedParents s a b = some (mo, fa))
    (hmale : (get s a).female = false) (hay : (get s a).yChrom = some v) :
    ((get s fa).yChrom = none → assignSibling s a b = (⟨false, s⟩, none)) ∧
    ((assignSibling s a b).2 ≠ none → (get s fa).yChrom = some v) := by
  constructor
  · intro hfy
    exact sibMarkerGuard_reject s a b mo fa v hg1 hg2 hmp hmale hay
      (by simp [hfy])
  · intro hsnd
    by_contra hw
    rw [sibMarkerGuard_reject s a b mo fa v hg1 hg2 hmp hmale hay hw] at hsnd
    exact hsnd rfl

/-- C7 counterexample: the claimed compatible pairing — known son marker,
unknown merged-father marker — is rejected by the transaction. -/
theorem claim_C7_counterexample :
    (get exC7 "A").female = false ∧
    (get exC7 "A").yChrom = some "Y1" ∧
    sibMergedParents exC7 "A" "B" = some ("MA", "FA") ∧
    (get exC7 "FA").yChrom = none ∧
    (runSibling exC7 "A" "B").ok = false := by decide

theorem claim_C7_witness :
    assignSibling exC7 "A" "B" = (⟨false, exC7⟩, none) ∧
    (get exC7b "FA").yChrom = some "Y1" :=
  ⟨(claim_C7 exC7 "A" "B" "MA" "FA" "Y1" (by decide) (by decide) (by decide)
      (by decide) (by decide)).1 (by decide),
   (claim_C7 exC7b "A" "B" "MA" "FA" "Y1" (by decide) (by decide) (by decide)
      (by decide) (by decide)).2 (by decide)⟩


/-! ### Claim C10 -/

/-- Code-point lexicographic order on character lists, matching Python's
`<` on strings (written out so that it evaluates inside the kernel). -/
def charListLt : List Char → List Char → Bool
  | [], [] => false
  | [], _ :: _ => true
  | _ :: _, [] => false
  | c :: cs, d :: ds =>
      if c.val.toNat < d.val.toNat then true
      else if d.val.toNat < c.val.toNat then false
      else charListLt cs ds

/-- Python `a < b` on id strings. -/
def strLt (a b : String) : Bool := charListLt a.data b.data

/-- The recursive `visit` of `_gender_top_sort` (`util.py` 60-72), fueled:
threads the `(visited, result)` pair, visiting the mother slot before the
father slot and appending the node after its parents. -/
def gtsVisit (s : State) : Nat → Id → List Id × List Id → List Id × List Id
  | 0, _, vr => vr
  | fuel + 1, i, vr =>
    if i ∈ vr.1 then vr
    else
      match (get s i).parents with
      | none => (i :: vr.1, vr.2 ++ [i])
      | some (m, f) =>
          let vr1 := gtsVisit s fuel m vr
          let vr2 := gtsVisit s fuel f vr1
          (i :: vr2.1, vr2.2 ++ [i])

/-- `_gender_top_sort` (`util.py` 33-82): start a visit from every childless
node in lexicographic id order, then map the visit order to sex bits.
(`num_mapping` in the source is computed but never used.) -/
def genderTopSort (s : State) : List Bool :=
  let ids := ((s.filter (fun e => e.2.children = [])).map Prod.fst).mergeSort
    (fun x y => ! strLt y x)
  let vr := ids.foldl (fun vr i =>
    if i ∈ vr.1 then vr else gtsVisit s (s.length + 1) i vr) ([], [])
  vr.2.map (fun i => (get s i).female)

/-- The loop pair of `compare_isomorph` (`util.py` 101-109) over entries
`(graph, signature, ok)`: an ok row is emitted and clears the ok bit of
every later row with the same signature; a cleared row is skipped. -/
def ciRun : List (State × List Bool × Bool) → List State
  | [] => []
  | (g, t, ok) :: rest =>
      if ok then
        g :: ciRun (rest.map (fun e =>
          (e.1, e.2.1, if e.2.1 = t then false else e.2.2)))
      else ciRun rest
termination_by l => l.length
decreasing_by all_goals simp

/-- `compare_isomorph` (`util.py` 91-110). -/
def compareIsomorph (graphs : List State) : List State :=
  ciRun (graphs.map (fun g => (g, genderTopSort g, true)))

/-- Every emitted graph comes from a row whose ok bit was set. -/
theorem ciRun_mem (n : Nat) :
    ∀ (l : List (State × List Bool × Bool)), l.length = n →
    ∀ x ∈ ciRun l, ∃ t', (x, t', true) ∈ l := by
  induction n using Nat.strong_induction_on with
  | _ n ih =>
    intro l hn
    match l with
    | [] => intro x hx; rw [ciRun] at hx; exact absurd hx (List.not_mem_nil x)
    | (g, t, ok) :: rest =>
      intro x hx
      rw [ciRun] at hx
      by_cases hok : ok
      · rw [if_pos hok] at hx
        rcases List.mem_cons.mp hx with rfl | hx
        · exact ⟨t, hok ▸ List.mem_cons_self _ _⟩
        · obtain ⟨t', ht'⟩ := ih rest.length (by rw [← hn]; simp)
            (rest.map (fun e => (e.1, e.2.1, if e.2.1 = t then false else e.2.2)))
            (by simp) x hx
          rw [List.mem_map] at ht'
          obtain ⟨e, he, heq⟩ := ht'
          have h1 : e.1 = x := congrArg Prod.fst heq
          have h2 : e.2.1 = t' := congrArg (fun q => q.2.1) heq
          have h3 : (if e.2.1 = t then false else e.2.2) = true :=
            congrArg (fun q => q.2.2) heq
          have hok2 : e.2.2 = true := by
            by_cases hc : e.2.1 = t
            · rw [if_pos hc] at h3; exact absurd h3 Bool.false_ne_true
            · rw [← h3, if_neg hc]
          refine ⟨e.2.1, List.mem_cons_of_mem _ ?_⟩
          have : e = (x, e.2.1, true) := by
            rw [← h1, ← hok2]
          exact this ▸ he
      · rw [if_neg hok] at hx
        obtain ⟨t', ht'⟩ :=
          ih rest.length (by rw [← hn]; simp) rest rfl x hx
        exact ⟨t', List.mem_cons_of_mem _ ht'⟩

/-- Emitted graphs have pairwise distinct signatures. -/
theorem ciRun_sig_pairwise (n : Nat) :
    ∀ (l : List (State × List Bool × Bool)), l.length = n →
    (∀ e ∈ l, e.2.1 = genderTopSort e.1) →
    ((ciRun l).map genderTopSort).Pairwise (fun u v => u ≠ v) := by
  induction n using Nat.strong_induction_on with
  | _ n ih =>
    intro l hn
    match l with
    | [] => intro _; rw [ciRun]; exact List.Pairwise.nil
    | (g, t, ok) :: rest =>
      intro hl
      rw [ciRun]
      by_cases hok : ok
      · rw [if_pos hok]
        set rest' := rest.map (fun e =>
          (e.1, e.2.1, if e.2.1 = t then false else e.2.2)) with hrest'
        have hl' : ∀ e ∈ rest', e.2.1 = genderTopSort e.1 := by
          intro e he
          rw [hrest', List.mem_map] at he
          obtain ⟨e0, he0, heq⟩ := he
          have ha : e.1 = e0.1 := by rw [← heq]
          have hb : e.2.1 = e0.2.1 := by rw [← heq]
          rw [ha, hb]
          exact hl e0 (List.mem_cons_of_mem _ he0)
        rw [List.map_cons]
        refine List.Pairwise.cons ?_
          (ih rest'.length (by rw [← hn]; simp [hrest']) rest' rfl hl')
        intro v hv
        rw [List.mem_map] at hv
        obtain ⟨x, hx, rfl⟩ := hv
        obtain ⟨t', ht'⟩ := ciRun_mem rest'.length rest' rfl x hx
        rw [hrest', List.mem_map] at ht'
        obtain ⟨e0, he0, heq⟩ := ht'
        have h1 : e0.1 = x := congrArg Prod.fst heq
        have h2 : e0.2.1 = t' := congrArg (fun q => q.2.1) heq
        have h3 : (if e0.2.1 = t then false else e0.2.2) = true :=
          congrArg (fun q => q.2.2) heq
        have hne : e0.2.1 ≠ t := by
          intro hc
          rw [if_pos hc] at h3
          exact absurd h3 Bool.false_ne_true
        have hgx : genderTopSort x = e0.2.1 := by
          rw [← h1]
          exact (hl e0 (List.mem_cons_of_mem _ he0)).symm
        have hgt : genderTopSort g = t :=
          (hl (g, t, ok) (List.mem_cons_self _ _)).symm
        rw [hgt]
        intro hc
        exact hne (by rw [← hgx, ← hc])
      · rw [if_neg hok]
        exact ih rest.length (by rw [← hn]; simp) rest rfl
          (fun e he => hl e (List.mem_cons_of_mem _ he))

/-- On all-ok rows with pairwise distinct signatures the loop keeps every
graph. -/
theorem ciRun_all_distinct :
    ∀ (l : List (State × List Bool × Bool)),
    (∀ e ∈ l, e.2.2 = true) →
    (l.map (fun e => e.2.1)).Pairwise (fun u v => u ≠ v) →
    ciRun l = l.map (fun e => e.1) := by
  intro l
  induction l with
  | nil => intro _ _; rw [ciRun]; rfl
  | cons hd rest ihl =>
    intro hok hpw
    obtain ⟨g, t, ok⟩ := hd
    have hok1 : ok = true := hok (g, t, ok) (List.mem_cons_self _ _)
    subst hok1
    rw [ciRun, if_pos rfl]
    rw [List.map_cons, List.pairwise_cons] at hpw
    have hfid : ∀ e ∈ rest,
        (fun e => (e.1, e.2.1, if e.2.1 = t then false else e.2.2)) e =
        id e := by
      intro e he
      have hne : e.2.1 ≠ t := fun hc =>
        (hpw.1 e.2.1 (List.mem_map_of_mem _ he)) hc.symm
      simp [hne]
    rw [List.map_congr_left hfid, List.map_id]
    rw [List.map_cons]
    congr 1
    exact ihl (fun e he => hok e (List.mem_cons_of_mem _ he)) hpw.2

/-- C10: the isomorphism deduplicator is idempotent — a second pass over
its own output (whose gender-top-sort signatures are pairwise distinct)
returns that output unchanged. -/
theorem claim_C10 (graphs : List State) :
    compareIsomorph (compareIsomorph graphs) = compareIsomorph graphs := by
  unfold compareIsomorph
  set out := ciRun (graphs.map (fun g => (g, genderTopSort g, true))) with hout
  have hpw : (out.map genderTopSort).Pairwise (fun u v => u ≠ v) := by
    rw [hout]
    refine ciRun_sig_pairwise _ _ rfl ?_
    intro e he
    rw [List.mem_map] at he
    obtain ⟨g0, hg0, heq⟩ := he
    rw [← heq]
  have hok2 : ∀ e ∈ out.map (fun g => (g, genderTopSort g, true)),
      e.2.2 = true := by
    intro e he
    rw [List.mem_map] at he
    obtain ⟨g0, _, heq⟩ := he
    rw [← heq]
  have hpw2 : ((out.map (fun g => (g, genderTopSort g, true))).map
      (fun e => e.2.1)).Pairwise (fun u v => u ≠ v) := by
    rw [List.map_map]
    exact hpw
  rw [ciRun_all_distinct _ hok2 hpw2, List.map_map]
  have hcomp : ((fun (e : State × List Bool × Bool) => e.1) ∘
      fun g => (g, genderTopSort g, true)) = id := rfl
  rw [hcomp, List.map_id]

/-! ### The construction pipeline (`construct_graph` and its helpers)

The observation dictionary is a `Nat`-keyed association list in insertion
order, matching Python's ordered dicts.  Python's in-place dict mutation is
modelled by threading: every function that could write through a reference
takes the value and returns the updated one; `deepcopy` severs the link, so
a copy is simply a separate value.  Python `set` iteration order is
unspecified; wherever it can influence a result (the visited set of
`_visit_nodes`) we fix first-insertion order. -/

abbrev PairList := List (Id × Id)

abbrev PairMap := List (Nat × PairList)

def pmGet (m : PairMap) (k : Nat) : Option PairList := m.lookup k

/-- `pairwise_relations.pop(1, None)`. -/
def pmPop1 (m : PairMap) : PairMap := m.filter (fun e => e.1 ≠ 1)

/-- `temp.update({k : v})`: replace in place, append when the key is new. -/
def pmUpdate (m : PairMap) (k : Nat) (v : PairList) : PairMap :=
  if k ∈ m.map Prod.fst then m.map (fun e => if e.1 = k then (k, v) else e)
  else m ++ [(k, v)]

/-- `mapping.get(k).append(v)` on the id-keyed prune mappings. -/
def mapApp (m : List (Id × List Id)) (k : Id) (v : Id) : List (Id × List Id) :=
  if k ∈ m.map Prod.fst then
    m.map (fun e => if e.1 = k then (e.1, e.2 ++ [v]) else e)
  else m ++ [(k, [v])]

def MAX : Nat := 3

/-- `Node.extrapolate` (`pedigree.py` 79-105) for one node, threading the
global `Node.filler_id` counter: a parentless node gets a fresh father
(`filler+1`) and mother (`filler+2`), both unoccupied, each carrying the
node's same-lineage marker. -/
def extrapolate (fc : Nat) (s : State) (i : Id) : Nat × State :=
  if (get s i).parents = none then
    let fid := toString (fc + 1)
    let mid := toString (fc + 2)
    let father : NodeR :=
      { female := false, mtDna := none
      , yChrom := if ¬ (get s i).female then (get s i).yChrom else none
      , occupied := false, original := false, parents := none
      , children := [i] }
    let mother : NodeR :=
      { female := true, mtDna := (get s i).mtDna, yChrom := none
      , occupied := false, original := false, parents := none
      , children := [i] }
    (fc + 2,
     upd (s ++ [(fid, father), (mid, mother)]) i
       (fun n => { n with parents := some (mid, fid) }))
  else (fc, s)

/-- `for node in node_list: node.extrapolate()` over the ids present when
the loop starts. -/
def extrapolateAll (fc : Nat) (s : State) : Nat × State :=
  (keys s).foldl (fun (p : Nat × State) i => extrapolate p.1 p.2 i) (fc, s)

/-- The BFS-with-a-stack of `_visit_nodes` (`pedigree.py` 204-212):
`copy_list.pop()` pops the last element; a popped node enters the visited
set, and unvisited parents then children are appended to both. -/
def visitLoop (s : State) : Nat → List Id → List Id → List Id
  | 0, _, vis => vis
  | fuel + 1, stack, vis =>
    match stack.getLast? with
    | none => vis
    | some nd =>
      let stack0 := stack.dropLast
      let vis1 := if nd ∈ vis then vis else vis ++ [nd]
      let prel := match (get s nd).parents with
        | some (m, f) => [m, f]
        | none => []
      let step := (prel ++ (get s nd).children).foldl
        (fun (p : List Id × List Id) r =>
          if r ∈ p.2 then p else (p.1 ++ [r], p.2 ++ [r])) (stack0, vis1)
      visitLoop s fuel step.1 step.2

/-- `_visit_nodes` (`pedigree.py` 185-212).  When some listed node is
unoccupied the source recurses once on the occupied sublist; that sublist
is all-occupied, so the recursion is inlined. -/
def visitNodes (s : State) (nl : List Id) : List Id :=
  let temp := nl.filter (fun i => (get s i).occupied)
  if temp.length ≠ nl.length then
    visitLoop s (s.length + temp.length + 1) temp []
  else visitLoop s (s.length + nl.length + 1) nl []

/-- `deepcopy_graph` (`pedigree.py` 899-925): the reachable subgraph as a
fresh arena, entries in visit order; connections are ids already. -/
def deepcopyGraph (s : State) (nl : List Id) : State :=
  (visitNodes s nl).map (fun i => (i, get s i))

/-- One `with _assign_parental(c, p) as ok: if ok: <recurse>` block: run to
the yield, recurse on the mid state when ok, then run the rollback (when
the commit path armed one) on the state the recursion left. -/
def parentalBlock (c p : Id) (k : State → State × List State) (s : State) :
    State × List State :=
  let t := assignParental s c p
  let r := if t.1.ok then k t.1.mid else (t.1.mid, [])
  match t.2 with
  | none => r
  | some rb => (parentalRollback r.1 rb, r.2)

/-- The sibling counterpart of `parentalBlock`. -/
def siblingBlock (a b : Id) (k : State → State × List State) (s : State) :
    State × List State :=
  let t := assignSibling s a b
  let r := if t.1.ok then k t.1.mid else (t.1.mid, [])
  match t.2 with
  | none => r
  | some rb => (siblingRollback r.1 rb, r.2)

/-- `_assign_helper` (`pedigree.py` 215-313), threading the mutable graph
and accumulating the produced copies.  (The cached `src_node`/`dest_node`
deep copies of the source are never read and are not modelled; a `None`
relation behaves exactly like an exhausted one and is passed as `[]`.) -/
def assignHelper (nl : List Id) : List (Id × Id) → State → State × List State
  | [], s => (s, [deepcopyGraph s nl])
  | (src, dest) :: rest, s =>
    let k := fun st => assignHelper nl rest st
    let sn := get s src
    let dn := get s dest
    let shareMt := sn.mtDna = dn.mtDna
    let oneNone := sn.mtDna = none ∨ dn.mtDna = none
    if ¬ sn.female ∧ ¬ dn.female then
      let shareY := sn.yChrom = dn.yChrom
      let oneY := sn.yChrom = none ∨ dn.yChrom = none
      let r1 := if (shareY ∨ oneY) ∧ (shareMt ∨ oneNone)
        then siblingBlock src dest k s else (s, [])
      if (shareY ∨ oneY) ∧ (oneNone ∨ ¬ shareMt) then
        let r2 := parentalBlock dest src k r1.1
        let r3 := parentalBlock src dest k r2.1
        (r3.1, r1.2 ++ r2.2 ++ r3.2)
      else r1
    else if (¬ sn.female ∧ dn.female) ∨ (sn.female ∧ ¬ dn.female) then
      let male := if dn.female then src else dest
      let fem := if sn.female then src else dest
      let r1 := if shareMt ∨ oneNone then
          let ra := siblingBlock male fem k s
          let rb := parentalBlock male fem k ra.1
          (rb.1, ra.2 ++ rb.2)
        else (s, [])
      if ¬ shareMt then
        let r2 := parentalBlock fem male k r1.1
        (r2.1, r1.2 ++ r2.2)
      else r1
    else
      if shareMt ∨ oneNone then
        let r1 := siblingBlock src dest k s
        let r2 := parentalBlock src dest k r1.1
        let r3 := parentalBlock dest src k r2.1
        (r3.1, r1.2 ++ r2.2 ++ r3.2)
      else (s, [])

/-- `_mark_and_extrapolate` (`pedigree.py` 758-768): mark every unoccupied
node occupied (extrapolating it when requested), then re-collect each graph
with `_visit_nodes`. -/
def markAndExtrapolate (ext : Bool) : List State → Nat → Nat × List State
  | [], fc => (fc, [])
  | g :: gs, fc =>
    let nl := keys g
    let p1 := nl.foldl (fun (p : Nat × State) i =>
      if ¬ (get p.2 i).occupied then
        let s1 := upd p.2 i (fun n => { n with occupied := true })
        if ext then extrapolate p.1 s1 i else (p.1, s1)
      else p) (fc, g)
    let gv := (visitNodes p1.2 nl).map (fun i => (i, get p1.2 i))
    let rest := markAndExtrapolate ext gs p1.1
    (rest.1, gv :: rest.2)

/-- `_reduce_relation` (`pedigree.py` 522-540).  The source compares ids
with `is`; for the interned id strings of one run this acts as string
equality, which is how it is modelled. -/
def reduceRelation (s : State) (first second : Id) : PairList :=
  ((firstDegreeRel s first).filter (fun nd => nd ≠ second)).map
    (fun nd => (second, nd)) ++
  ((firstDegreeRel s second).filter (fun nd => nd ≠ first)).map
    (fun nd => (first, nd))

/-- `_relax_helper` (`pedigree.py` 770-789): all ways to pick one pair from
each buffer entry, in source order. -/
def relaxHelper : List PairList → PairList → List PairList
  | [], temp => [temp]
  | cur :: rest, temp => cur.flatMap (fun rel => relaxHelper rest (temp ++ [rel]))

/-- `_relax_helper2` (`pedigree.py` 791-808): all ways to pick one
possibility list per position, keyed `idx + 1`. -/
def relaxHelper2 : List (List PairList) → Nat → PairMap → List PairMap
  | [], _, temp => [temp]
  | cur :: rest, idx, temp =>
    cur.flatMap (fun poss => relaxHelper2 rest (idx + 1) (pmUpdate temp (idx + 1) poss))

/-- `_relax_degree` (`pedigree.py` 810-838): drop the degree-1 entry, relax
every remaining observation by one degree, and enumerate the resulting
observation dictionaries. -/
def relaxDegree (g : State) (pm : PairMap) : List PairMap :=
  let pm1 := pmPop1 pm
  let possibilities := pm1.map (fun e =>
    relaxHelper (e.2.map (fun r => reduceRelation g r.1 r.2)) [])
  relaxHelper2 possibilities 0 []

/-- The mapping both prune passes build from the stated observations. -/
def pruneMapping (nl : List Id) (rels : PairList) : List (Id × List Id) :=
  rels.foldl (fun m r => mapApp (mapApp m r.1 r.2) r.2 r.1)
    (nl.map (fun i => (i, ([] : List Id))))

/-- `_check_graph` of `_prune_graphs` (`pedigree.py` 735-743). -/
def checkGraph1 (mapping : List (Id × List Id)) (g : State) : Bool :=
  (keys g).all (fun nd =>
    if (get g nd).occupied then
      (firstDegreeRel g nd).all (fun rel =>
        let fs := if strLt rel nd then (rel, nd) else (nd, rel)
        if (get g rel).occupied then
          decide (fs.2 ∈ (mapping.lookup fs.1).getD [])
        else true)
    else true)

/-- `_prune_graphs` (`pedigree.py` 700-756), marker backfill included. -/
def pruneGraphs (firstDeg : Option PairList) (nl : List Id)
    (graphs : List State) : List State :=
  match firstDeg with
  | none => graphs
  | some rels =>
    let mapping := pruneMapping nl rels
    ((graphs.filter (checkGraph1 mapping)).map pruneBackfill)

/-- `_check_graph` of `_prune_graphs2` (`pedigree.py` 674-685). -/
def checkGraph2 (mapping : List (Id × List Id)) (g : State) : Bool :=
  (keys g).all (fun nd =>
    if (get g nd).original then
      ((firstDegreeRel g nd).dedup).all (fun rel =>
        ((firstDegreeRel g rel).dedup).all (fun second =>
          if (get g second).original ∧ second ≠ nd ∧
             second ∉ (firstDegreeRel g nd).dedup ∧
             second ∉ parentsList g rel then
            decide (second ∈ (mapping.lookup nd).getD [])
          else true))
    else true)

/-- `_prune_graphs2` (`pedigree.py` 646-698), marker backfill included. -/
def pruneGraphs2 (secondDeg : Option PairList) (nl : List Id)
    (graphs : List State) : List State :=
  match secondDeg with
  | none => graphs
  | some rels =>
    let mapping := pruneMapping nl rels
    ((graphs.filter (checkGraph2 mapping)).map pruneBackfill)

/-- `_check_graph` of `_prune_graphs3` (`pedigree.py` 623-636). -/
def checkGraph3 (mapping : List (Id × List Id)) (g : State) : Bool :=
  (keys g).all (fun nd =>
    if (get g nd).original then
      ((secondDegreeRel g nd).dedup).all (fun rel =>
        ((firstDegreeRel g rel).dedup).all (fun third =>
          if (get g third).original ∧ third ≠ nd ∧
             third ∉ (firstDegreeRel g nd).dedup ∧
             third ∉ secondDegreeRel g nd ∧
             third ∉ parentsList g rel then
            decide (third ∈ (mapping.lookup nd).getD [])
          else true))
    else true)

/-- `_prune_graphs3` (`pedigree.py` 594-643): no backfill. -/
def pruneGraphs3 (thirdDeg : Option PairList) (nl : List Id)
    (graphs : List State) : List State :=
  match thirdDeg with
  | none => graphs
  | some rels =>
    let mapping := pruneMapping nl rels
    graphs.filter (checkGraph3 mapping)

/-- `construct_graph` (`pedigree.py` 841-897), fueled by the remaining
recursion depth and threading the filler counter, the untouched original
observations, and the accumulated results: `(filler, original, results)`. -/
def constructGraph : Nat → State → PairMap → PairMap → Nat → Nat →
    Nat × PairMap × List State
  | 0, _, _, orig, _, fc => (fc, orig, [])
  | fuel + 1, s, pm, orig, degree, fc =>
    if degree = MAX then
      (fc, orig, if s ≠ [] then [s] else [])
    else
      let nl := keys s
      let p1 := if degree = 1 then extrapolateAll fc s else (fc, s)
      let va := assignHelper nl ((pmGet pm 1).getD []) p1.2
      let valid1 :=
        if degree = 1 then pruneGraphs (pmGet orig 1) nl va.2
        else if degree = 2 then pruneGraphs2 (pmGet orig 2) nl va.2
        else if degree = 3 then pruneGraphs3 (pmGet orig 3) nl va.2
        else va.2
      let p2 := markAndExtrapolate (degree + 1 ≠ MAX) valid1 p1.1
      p2.2.foldl (fun (acc : Nat × PairMap × List State) g =>
        let dicts := relaxDegree g pm
        if degree = MAX - 1 ∨ dicts = [] then
          let r := constructGraph fuel g (pmPop1 pm) acc.2.1 (degree + 1) acc.1
          (r.1, r.2.1, acc.2.2 ++ r.2.2)
        else
          dicts.foldl (fun (acc2 : Nat × PairMap × List State) d =>
            let r := constructGraph fuel g d acc2.2.1 (degree + 1) acc2.1
            (r.1, r.2.1, acc2.2.2 ++ r.2.2)) acc) (p2.1, orig, [])

/-! ### Claims C8 and C9 -/

/-- The C8 input: two given unmarked males and one degree-1 observation. -/
def exC8 : State :=
  [ ("A", { female := false, mtDna := none, yChrom := none
          , occupied := true, original := true, parents := none
          , children := [] })
  , ("B", { female := false, mtDna := none, yChrom := none
          , occupied := true, original := true, parents := none
          , children := [] }) ]

def pmC8 : PairMap := [(1, [("A", "B")])]

/-- The full search on the C8 input. -/
def resC8 : List State := (constructGraph MAX exC8 pmC8 pmC8 1 0).2.2

set_option maxHeartbeats 4000000 in
/-- C8: on two given males with one degree-1 observation the search
produces exactly three candidate graphs, in order: the two as full
siblings (same parents pair), `A` the father of `B`, and `B` the father
of `A` — each having passed the pruning stage. -/
theorem claim_C8 :
    resC8.length = 3 ∧
    (get (resC8.getD 0 []) "A").parents = (get (resC8.getD 0 []) "B").parents ∧
    (get (resC8.getD 0 []) "A").parents ≠ none ∧
    (pparents (resC8.getD 1 []) "B").2 = "A" ∧
    (pparents (resC8.getD 2 []) "A").2 = "B" := by decide

/-- A fold keeps any invariant its step preserves. -/
theorem foldl_preserve {α β : Type} (f : β → α → β) (P : β → Prop)
    (h : ∀ b a, P b → P (f b a)) :
    ∀ (l : List α) (b : β), P b → P (l.foldl f b) := by
  intro l
  induction l with
  | nil => intro b hb; exact hb
  | cons a l ihl => intro b hb; exact ihl _ (h b a hb)

/-- C9: the original observation dictionary threaded through the search
comes back exactly as it went in, for every input graph, every working
dictionary, every degree and every filler counter: the search reads it
(`original_pairwise.get(k)`) but only ever writes through per-branch
copies. -/
theorem claim_C9 (fuel : Nat) :
    ∀ (s : State) (pm orig : PairMap) (degree fc : Nat),
    (constructGraph fuel s pm orig degree fc).2.1 = orig := by
  induction fuel with
  | zero => intro s pm orig degree fc; rfl
  | succ fuel ih =>
    intro s pm orig degree fc
    simp only [constructGraph]
    by_cases hdeg : degree = MAX
    · rw [if_pos hdeg]
    · rw [if_neg hdeg]
      refine foldl_preserve _ (fun (acc : Nat × PairMap × List State) => acc.2.1 = orig) ?_ _ _ rfl
      intro b g hb
      by_cases hc : degree = MAX - 1 ∨ relaxDegree g pm = []
      · rw [if_pos hc]
        rw [ih]
        exact hb
      · rw [if_neg hc]
        refine foldl_preserve _ (fun (acc2 : Nat × PairMap × List State) => acc2.2.1 = orig) ?_ _ _ hb
        intro b2 d hb2
        rw [ih]
        exact hb2


theorem chain_shorten (r : Id → Id → Prop) :
    ∀ (L : List Id), List.Chain' r L →
    ∃ L2, L2.Nodup ∧ List.Chain' r L2 ∧ L2.head? = L.head? ∧
      L2.getLast? = L.getLast? ∧ L2.length ≤ L.length := by
  intro L
  induction L with
  | nil => exact fun _ => ⟨[], by simp, by simp, rfl, rfl, le_refl _⟩
  | cons a L' ihl =>
    intro hch
    obtain ⟨L2', hnd, hch2, hhd, hlast, hlen⟩ := ihl hch.tail
    by_cases hmem : a ∈ L2'
    · obtain ⟨P, R, hPR⟩ := List.append_of_mem hmem
      subst hPR
      rw [List.chain'_append] at hch2
      have hL'ne : L' ≠ [] := by
        intro h
        subst h
        rw [List.head?_nil, List.head?_eq_none_iff] at hhd
        exact absurd hhd (by simp)
      obtain ⟨b, L'', rfl⟩ := List.exists_cons_of_ne_nil hL'ne
      refine ⟨a :: R, List.Nodup.of_append_right hnd, hch2.2.1, by simp, ?_, ?_⟩
      · rw [List.getLast?_cons_cons]
        rw [List.getLast?_append_of_ne_nil _ (List.cons_ne_nil a R)] at hlast
        exact hlast
      · have := hlen
        simp only [List.length_append, List.length_cons] at this ⊢
        omega
    · have hiff : L2' = [] ↔ L' = [] := by
        constructor
        · intro h; subst h
          rw [List.head?_nil] at hhd
          exact List.head?_eq_none_iff.mp hhd.symm
        · intro h; subst h
          rw [List.head?_nil, List.head?_eq_none_iff] at hhd
          exact hhd
      have hchn : List.Chain' r (a :: L2') := by
        rw [List.chain'_cons']
        refine ⟨?_, hch2⟩
        intro y hy
        rw [hhd] at hy
        exact (List.chain'_cons'.mp hch).1 y hy
      refine ⟨a :: L2', List.nodup_cons.mpr ⟨hmem, hnd⟩, hchn, by simp, ?_,
        by simp only [List.length_cons]; omega⟩
      cases hL' : L' with
      | nil =>
        have h2 : L2' = [] := hiff.mpr hL'
        rw [h2]
      | cons b L'' =>
        have h2 : L2' ≠ [] := fun h => by
          rw [hL'] at hiff
          exact List.noConfusion (hiff.mp h)
        obtain ⟨c, L2'', rfl⟩ := List.exists_cons_of_ne_nil h2
        rw [hL'] at hlast
        rw [List.getLast?_cons_cons, List.getLast?_cons_cons]
        exact hlast

theorem chain'_dropLast_rel {r : Id → Id → Prop} :
    ∀ (L : List Id), List.Chain' r L → ∀ x ∈ L.dropLast, ∃ y, r x y := by
  intro L
  induction L with
  | nil => simp
  | cons a L' ihl =>
    intro h x hx
    cases L' with
    | nil => simp at hx
    | cons b L'' =>
      rw [show (a :: b :: L'').dropLast = a :: (b :: L'').dropLast from rfl,
        List.mem_cons] at hx
      rcases hx with rfl | hx
      · exact ⟨b, (List.chain'_cons.mp h).1⟩
      · exact ihl (List.chain'_cons.mp h).2 x hx

theorem mem_keys_of_edge {s : State} {x y : Id} (h : edge s x y) : x ∈ keys s := by
  by_contra hn
  rw [edge, get_eq_dflt_of_not_mem hn] at h
  exact absurd h (List.not_mem_nil y)

theorem nodup_subset_length {l m : List Id} (hnd : l.Nodup)
    (hsub : ∀ x ∈ l, x ∈ m) : l.length ≤ m.length := by
  calc l.length = l.toFinset.card := (List.toFinset_card_of_nodup hnd).symm
  _ ≤ m.toFinset.card := Finset.card_le_card (fun x hx => by
      rw [List.mem_toFinset] at hx ⊢; exact hsub x hx)
  _ ≤ m.length := m.toFinset_card_le

theorem searchDesc_of_chain (s : State) (ts : List Id) :
    ∀ (rest : List Id) (n : Id) (fuel : Nat), rest.length ≤ fuel →
    List.Chain' (edge s) (n :: rest) → rest ≠ [] →
    rest.getLast?.getD n ∈ ts →
    searchDesc s fuel n ts = true := by
  intro rest
  induction rest with
  | nil => intro n fuel _ _ hne _; exact absurd rfl hne
  | cons c rest' ih =>
    intro n fuel hlen hch _ hts
    cases fuel with
    | zero => simp at hlen
    | succ f =>
      rw [searchDesc, List.any_eq_true]
      refine ⟨c, (List.chain'_cons.mp hch).1, ?_⟩
      cases hrest : rest' with
      | nil =>
        subst hrest
        rw [List.getLast?_singleton, Option.getD_some] at hts
        simp [hts]
      | cons d rest'' =>
        subst hrest
        have hcall : searchDesc s f c ts = true := by
          refine ih c f (by simpa using hlen) (List.chain'_cons.mp hch).2
            (by simp) ?_
          rw [List.getLast?_cons_cons] at hts
          exact hts
        simp [hcall]

theorem searchDesc_complete {s : State} (hacy : Acyclic s) {n t : Id}
    {ts : List Id} (hr : SReach s n t) (hts : t ∈ ts) :
    searchDesc s (descFuel s) n ts = true := by
  obtain ⟨m, hnm, hmt⟩ := hr
  obtain ⟨l, hchain, hlast⟩ := List.exists_chain_of_relationReflTransGen hmt
  have hch : List.Chain' (edge s) (n :: m :: l) :=
    List.chain'_cons.mpr ⟨hnm, hchain⟩
  obtain ⟨L2, hnd, hch2, hhd, hlast2, hlen⟩ := chain_shorten (edge s) _ hch
  have hml : (n :: m :: l).getLast? = some t := by
    rw [List.getLast?_cons_cons, List.getLast?_eq_getLast _ (by simp)]
    exact congrArg some hlast
  have hL2ne : L2 ≠ [] := by
    intro h; subst h
    rw [List.head?_nil] at hhd
    exact absurd hhd.symm (by simp)
  obtain ⟨a, rest, rfl⟩ := List.exists_cons_of_ne_nil hL2ne
  have han : a = n := by
    rw [List.head?_cons, List.head?_cons] at hhd
    exact Option.some.inj hhd
  subst han
  have hlastt : (a :: rest).getLast? = some t := by rw [hlast2, hml]
  have hrestne : rest ≠ [] := by
    intro h; subst h
    rw [List.getLast?_singleton] at hlastt
    have h2 : a = t := Option.some.inj hlastt
    subst h2
    exact hacy a ⟨m, hnm, hmt⟩
  have hsub : ∀ x ∈ (a :: rest).dropLast, x ∈ keys s := by
    intro x hx
    obtain ⟨y, hy⟩ := chain'_dropLast_rel _ hch2 x hx
    exact mem_keys_of_edge hy
  have hbound : rest.length ≤ s.length := by
    have h1 : (a :: rest).dropLast.length ≤ (keys s).length :=
      nodup_subset_length (hnd.sublist (List.dropLast_sublist _)) hsub
    have h2 : (keys s).length = s.length := by
      rw [show keys s = s.map Prod.fst from rfl, List.length_map]
    rw [List.dropLast_cons_of_ne_nil hrestne, List.length_cons,
      List.length_dropLast] at h1
    have h3 : rest.length ≠ 0 := fun h => hrestne (List.length_eq_zero.mp h)
    omega
  refine searchDesc_of_chain s ts rest a (descFuel s) ?_ hch2 hrestne ?_
  · rw [descFuel]; omega
  · obtain ⟨d, rest', rfl⟩ := List.exists_cons_of_ne_nil hrestne
    rw [List.getLast?_cons_cons] at hlastt
    rw [hlastt]
    exact hts

/-- Any walk in the extended graph starting at a vertex from which no hub
is reachable in the old graph uses only old edges. -/
theorem rtg_old_of_safe {s s' : State} {H : List Id} {NEWT : Id → List Id}
    (hedge : ∀ x y, edge s' x y → edge s x y ∨ (x ∈ H ∧ y ∈ NEWT x)) :
    ∀ v w, Relation.ReflTransGen (edge s') v w →
    (∀ h' ∈ H, ¬ Relation.ReflTransGen (edge s) v h') →
    Relation.ReflTransGen (edge s) v w := by
  intro v w hvw
  induction hvw using Relation.ReflTransGen.head_induction_on with
  | refl => intro _; exact Relation.ReflTransGen.refl
  | head hstep htail ih =>
    intro hP
    rename_i x u
    rcases hedge x u hstep with hold | ⟨hxH, _⟩
    · refine Relation.ReflTransGen.head hold (ih ?_)
      intro h' hh' hc
      exact hP h' hh' (Relation.ReflTransGen.head hold hc)
    · exact absurd Relation.ReflTransGen.refl (hP x hxH)

/-- A walk in the extended graph is an old walk, or an old walk to a hub
followed by a new edge and an extended walk. -/
theorem rtg_decomp {s s' : State} {H : List Id} {NEWT : Id → List Id}
    (hedge : ∀ x y, edge s' x y → edge s x y ∨ (x ∈ H ∧ y ∈ NEWT x)) :
    ∀ v w, Relation.ReflTransGen (edge s') v w →
    Relation.ReflTransGen (edge s) v w ∨
    ∃ h c, h ∈ H ∧ c ∈ NEWT h ∧ Relation.ReflTransGen (edge s) v h ∧
      Relation.ReflTransGen (edge s') c w := by
  intro v w hvw
  induction hvw using Relation.ReflTransGen.head_induction_on with
  | refl => exact Or.inl Relation.ReflTransGen.refl
  | head hstep htail ih =>
    rename_i x u
    rcases hedge x u hstep with hold | ⟨hxH, huT⟩
    · rcases ih with h1 | ⟨h, c, hh, hc, hvh, hcw⟩
      · exact Or.inl (Relation.ReflTransGen.head hold h1)
      · exact Or.inr ⟨h, c, hh, hc, Relation.ReflTransGen.head hold hvh, hcw⟩
    · exact Or.inr ⟨x, u, hxH, huT, Relation.ReflTransGen.refl, htail⟩

/-- Adding out-edges from hubs to targets from which no hub is reachable
(the target being a hub included) preserves acyclicity. -/
theorem acyclic_extend {s s' : State} {H : List Id} {NEWT : Id → List Id}
    (hedge : ∀ x y, edge s' x y → edge s x y ∨ (x ∈ H ∧ y ∈ NEWT x))
    (hacy : Acyclic s)
    (hsafe : ∀ h ∈ H, ∀ c ∈ NEWT h, ∀ h' ∈ H,
      ¬ Relation.ReflTransGen (edge s) c h') :
    Acyclic s' := by
  rintro x ⟨m, hxm, hmx⟩
  rcases rtg_decomp hedge m x hmx with hold | ⟨h, c, hh, hc, hmh, hcx⟩
  · rcases hedge x m hxm with hxmo | ⟨hxH, hmT⟩
    · exact hacy x ⟨m, hxmo, hold⟩
    · exact hsafe x hxH m hmT x hxH hold
  · have hPc : ∀ h' ∈ H, ¬ Relation.ReflTransGen (edge s) c h' := hsafe h hh c hc
    have hcxo : Relation.ReflTransGen (edge s) c x := rtg_old_of_safe hedge c x hcx hPc
    rcases hedge x m hxm with hxmo | ⟨hxH, hmT⟩
    · exact hPc h hh (hcxo.trans (Relation.ReflTransGen.head hxmo hmh))
    · exact hPc x hxH hcxo

/-- States with identical `children` fields have the same cycles. -/
theorem acyclic_congr {s s' : State}
    (h : ∀ x, (get s' x).children = (get s x).children) (hacy : Acyclic s) :
    Acyclic s' := by
  have he : ∀ x y, edge s' x y ↔ edge s x y := by
    intro x y; rw [edge, edge, h x]
  rintro x ⟨m, hxm, hmx⟩
  refine hacy x ⟨m, (he x m).mp hxm, ?_⟩
  clear hxm
  induction hmx using Relation.ReflTransGen.head_induction_on with
  | refl => exact Relation.ReflTransGen.refl
  | head hstep htail ih =>
    rename_i a b
    exact Relation.ReflTransGen.head ((he a b).mp hstep) ih

/-- Acyclicity of a parental commit state, given the cycle guard and that
the incoming parent is not itself a child of the replaced parent. -/
theorem parentalCommit_acyclic (s : State) (p tr sh : Id) (fem : Bool)
    (hwf : WF s) (hacy : Acyclic s)
    (hpk : p ∈ keys s) (htrk : tr ∈ keys s) (hshk : sh ∈ keys s)
    (hnp : p ∉ (get s tr).children)
    (hguard : ((get s tr).children.any
      (fun ch => searchDesc s (descFuel s) ch [p])) = false) :
    Acyclic (parentalMarkers (reparentLoop p fem (get s tr).children s) sh p) := by
  have htrchk : ∀ c ∈ (get s tr).children, c ∈ keys s := closed_children hwf htrk
  have hg : ∀ x, get (reparentLoop p fem (get s tr).children s) x =
      { get s x with
        parents := if x ∈ (get s tr).children
          then slotted fem p (get s x).parents else (get s x).parents,
        children := if x = p then (get s x).children ++ (get s tr).children
          else (get s x).children } :=
    fun x => reparentLoop_get p fem _ s x hpk htrchk
  have hsh1 : sh ∈ keys (reparentLoop p fem (get s tr).children s) := by
    simpa using hshk
  have hmk : ∀ x, (get (parentalMarkers
      (reparentLoop p fem (get s tr).children s) sh p) x).children =
      (get (reparentLoop p fem (get s tr).children s) x).children := fun x => by
    rw [parentalMarkers_get _ _ _ hsh1 x]
  refine acyclic_congr hmk ?_
  refine @acyclic_extend s _ [p]
    (fun h => if h = p then (get s tr).children else []) ?_ hacy ?_
  · intro x y hxy
    rw [edge] at hxy
    rw [hg x] at hxy
    simp only [] at hxy
    by_cases hxp : x = p
    · subst hxp
      rw [if_pos rfl, List.mem_append] at hxy
      rcases hxy with h1 | h1
      · exact Or.inl h1
      · exact Or.inr ⟨by simp, by simpa using h1⟩
    · rw [if_neg hxp] at hxy
      exact Or.inl hxy
  · intro h hh c hc h' hh' hrtg
    rw [List.mem_singleton] at hh hh'
    rw [hh] at hc
    rw [hh'] at hrtg
    have hc2 : c ∈ (get s tr).children := by simpa using hc
    rcases Relation.ReflTransGen.cases_head hrtg with rfl | ⟨u, hcu, hup⟩
    · exact hnp hc2
    · have hsd : searchDesc s (descFuel s) c [p] = true :=
        searchDesc_complete hacy ⟨u, hcu, hup⟩ (by simp)
      rw [List.any_eq_false] at hguard
      exact absurd hsd (hguard _ hc2)

theorem assignParental_acyclic (s : State) (c p : Id) (hwf : WF s)
    (hacy : Acyclic s) {cm cf pm pf : Id}
    (hc : (get s c).parents = some (cm, cf))
    (hp : (get s p).parents = some (pm, pf))
    (hnp : p ∉ (get s (if (get s p).female = true then cm else cf)).children) :
    Acyclic (assignParental s c p).1.mid := by
  have hpk : p ∈ keys s := mem_keys_of_parents (by simp [hp])
  have hck : c ∈ keys s := mem_keys_of_parents (by simp [hc])
  have hcmk := (closed_parents hwf hc).1
  have hcfk := (closed_parents hwf hc).2
  simp only [assignParental, pparents, hc, hp, Option.getD_some]
  split_ifs with h1 h2 h3 h4 h5 h6 h6
  all_goals try exact hacy
  · rw [if_pos h5] at hnp
    have hshk : (get s cm).children.getLast?.getD c ∈ keys s := by
      rcases @mem_of_getLastD ((get s cm).children) c _ rfl with
        hmem | ⟨_, hrfl⟩
      · exact closed_children hwf hcmk _ hmem
      · rw [hrfl]; exact hck
    exact parentalCommit_acyclic s p cm _ (get s p).female hwf hacy hpk hcmk
      hshk hnp (by simpa using h6)
  · rw [if_neg h5] at hnp
    have hshk : (get s cf).children.getLast?.getD c ∈ keys s := by
      rcases @mem_of_getLastD ((get s cf).children) c _ rfl with
        hmem | ⟨_, hrfl⟩
      · exact closed_children hwf hcfk _ hmem
      · rw [hrfl]; exact hck
    exact parentalCommit_acyclic s p cf _ (get s p).female hwf hacy hpk hcfk
      hshk hnp (by simpa using h6)

/-- From the first disjunct of a sibling replaced-parent guard: nothing in
the replaced parent's children list reaches the merged father or mother. -/
theorem sibGuard_safe (s : State) (father mother td : Id) (hacy : Acyclic s)
    (hsd : searchDesc s (descFuel s) td [father, mother] = false) :
    ∀ c ∈ (get s td).children, ∀ h', h' = father ∨ h' = mother →
      ¬ Relation.ReflTransGen (edge s) c h' := by
  intro c hc h' hh' hrtg
  have hre : SReach s td h' := ⟨c, hc, hrtg⟩
  have h2 : searchDesc s (descFuel s) td [father, mother] = true :=
    searchDesc_complete hacy hre (by rcases hh' with rfl | rfl <;> simp)
  rw [hsd] at h2
  exact Bool.noConfusion h2

/-- Acyclicity of a sibling commit state. -/
theorem sibCommit_acyclic (s : State) (a b father mother ftd mtd : Id)
    (L_F L_M : List Id) (hwf : WF s) (hacy : Acyclic s)
    (hak : a ∈ keys s) (hbk : b ∈ keys s)
    (hfk : father ∈ keys s) (hmk : mother ∈ keys s)
    (hftdk : ftd ∈ keys s) (hmtdk : mtd ∈ keys s)
    (hFM : father ≠ mother)
    (hLF : L_F = (get s ftd).children ∨ L_F = [])
    (hLM : L_M = (get s mtd).children ∨ L_M = [])
    (hsafeF : ∀ c ∈ L_F, ∀ h', h' = father ∨ h' = mother →
      ¬ Relation.ReflTransGen (edge s) c h')
    (hsafeM : ∀ c ∈ L_M, ∀ h', h' = father ∨ h' = mother →
      ¬ Relation.ReflTransGen (edge s) c h')
    (s2 : State)
    (hs2 : s2 = migrateLoop mother true L_M (migrateLoop father false L_F s)) :
    Acyclic (siblingMarkers s2 a b father) := by
  subst hs2
  have hMF : mother ≠ father := Ne.symm hFM
  have hLFk : ∀ x ∈ L_F, x ∈ keys s := by
    rcases hLF with rfl | rfl
    · exact fun x hx => closed_children hwf hftdk x hx
    · exact fun x hx => absurd hx (List.not_mem_nil x)
  have hLMk : ∀ x ∈ L_M, x ∈ keys s := by
    rcases hLM with rfl | rfl
    · exact fun x hx => closed_children hwf hmtdk x hx
    · exact fun x hx => absurd hx (List.not_mem_nil x)
  set S1 := migrateLoop father false L_F s with hS1
  set S2 := migrateLoop mother true L_M S1 with hS2
  have hkS1 : keys S1 = keys s := by rw [hS1]; simp
  have hkS2 : keys S2 = keys s := by rw [hS2]; simp [hkS1]
  have hg1 : ∀ x, get S1 x = { get s x with
      parents := if x ∈ L_F then slotted false father (get s x).parents
                 else (get s x).parents,
      children := if x = father then (get s x).children ++ L_F
                  else (get s x).children } := fun x => by
    rw [hS1, migrateLoop_eq_reparentLoop]
    exact reparentLoop_get _ _ _ _ _ hfk hLFk
  have hg2 : ∀ x, get S2 x = { get S1 x with
      parents := if x ∈ L_M then slotted true mother (get S1 x).parents
                 else (get S1 x).parents,
      children := if x = mother then (get S1 x).children ++ L_M
                  else (get S1 x).children } := fun x => by
    rw [hS2, migrateLoop_eq_reparentLoop]
    exact reparentLoop_get _ _ _ _ _ (by rw [hkS1]; exact hmk)
      (fun c hc => by rw [hkS1]; exact hLMk c hc)
  have hmkch : ∀ x, (get (siblingMarkers S2 a b father) x).children =
      (get S2 x).children := fun x => by
    rw [siblingMarkers_get S2 a b father (by rw [hkS2]; exact hak)
      (by rw [hkS2]; exact hbk) (by rw [hkS2]; exact hfk) x]
  refine acyclic_congr hmkch ?_
  refine @acyclic_extend s _ [father, mother]
    (fun h => if h = father then L_F
      else if h = mother then L_M else []) ?_ hacy ?_
  · intro x y hxy
    rw [edge, hg2 x, hg1 x] at hxy
    simp only [] at hxy
    by_cases hxm : x = mother
    · rw [if_pos hxm, List.mem_append] at hxy
      rcases hxy with h1 | h1
      · have hxf : ¬ x = father := by rw [hxm]; exact hMF
        rw [if_neg hxf] at h1
        exact Or.inl h1
      · refine Or.inr ⟨by simp [hxm], ?_⟩
        have hEv : (fun h => if h = father then L_F
            else if h = mother then L_M else []) mother = L_M := by
          simp [hMF]
        rw [hxm, hEv]
        exact h1
    · rw [if_neg hxm] at hxy
      by_cases hxf : x = father
      · rw [if_pos hxf, List.mem_append] at hxy
        rcases hxy with h1 | h1
        · exact Or.inl h1
        · refine Or.inr ⟨by simp [hxf], ?_⟩
          have hEv : (fun h => if h = father then L_F
              else if h = mother then L_M else []) father = L_F := by
            simp
          rw [hxf, hEv]
          exact h1
      · rw [if_neg hxf] at hxy
        exact Or.inl hxy
  · intro h hh c hc h' hh' hrtg
    rw [List.mem_cons, List.mem_singleton] at hh hh'
    rcases hh with hhf | hhm
    · rw [hhf] at hc
      have hc2 : c ∈ L_F := by simpa using hc
      exact hsafeF c hc2 h' hh' hrtg
    · rw [hhm] at hc
      have hc2 : c ∈ L_M := by simpa [hMF] using hc
      exact hsafeM c hc2 h' hh' hrtg

theorem guard_first_false {p : Prop} {b c : Bool}
    (hg : ¬ (p ∧ (b = true ∨ c = true))) (hne : p) : b = false := by
  cases hv : b
  · rfl
  · exact absurd ⟨hne, Or.inl hv⟩ hg

theorem assignSibling_acyclic (s : State) (a b : Id) (hwf : WF s)
    (hacy : Acyclic s) {am af bm bf : Id}
    (hpa : (get s a).parents = some (am, af))
    (hpb : (get s b).parents = some (bm, bf)) :
    Acyclic (assignSibling s a b).1.mid := by
  have hak : a ∈ keys s := mem_keys_of_parents (by simp [hpa])
  have hbk : b ∈ keys s := mem_keys_of_parents (by simp [hpb])
  have hamk := (closed_parents hwf hpa).1
  have hafk := (closed_parents hwf hpa).2
  have hbmk := (closed_parents hwf hpb).1
  have hbfk := (closed_parents hwf hpb).2
  simp only [assignSibling, pparents, hpa, hpb, Option.getD_some]
  by_cases hg1 : searchDesc s (descFuel s) a [b] = true ∨
      searchDesc s (descFuel s) b [a] = true
  · rw [if_pos hg1]; exact hacy
  rw [if_neg hg1]
  by_cases hg2 : am = bm ∧ af = bf
  · rw [if_pos hg2]; exact hacy
  rw [if_neg hg2]
  cases hmp : sibMergedParents s a b with
  | none => exact hacy
  | some mf =>
    obtain ⟨mother, father⟩ := mf
    simp only []
    have hspec := sibMergedParents_spec hwf hpa hpb hmp
    have hfk : father ∈ keys s := by
      rcases hspec.2.1 with h | h
      · rw [h]; exact hafk
      · rw [h]; exact hbfk
    have hmk : mother ∈ keys s := by
      rcases hspec.1 with h | h
      · rw [h]; exact hamk
      · rw [h]; exact hbmk
    have hFM : father ≠ mother := by
      intro he
      have h1 := hspec.2.2.1
      rw [← he, hspec.2.2.2] at h1
      exact Bool.noConfusion h1
    split_ifs
    all_goals try exact hacy
    · exact sibCommit_acyclic s a b father mother af am _ _ hwf hacy
        hak hbk hfk hmk hafk hamk hFM (Or.inl rfl) (Or.inl rfl)
        (sibGuard_safe s father mother af hacy (guard_first_false (by assumption) (by assumption)))
        (sibGuard_safe s father mother am hacy (guard_first_false (by assumption) (by assumption)))
        _ rfl
    · exact sibCommit_acyclic s a b father mother af bm _ _ hwf hacy
        hak hbk hfk hmk hafk hbmk hFM (Or.inl rfl) (Or.inl rfl)
        (sibGuard_safe s father mother af hacy (guard_first_false (by assumption) (by assumption)))
        (sibGuard_safe s father mother bm hacy (guard_first_false (by assumption) (by assumption)))
        _ rfl
    · exact sibCommit_acyclic s a b father mother af bm _ _ hwf hacy
        hak hbk hfk hmk hafk hbmk hFM (Or.inl rfl) (Or.inr rfl)
        (sibGuard_safe s father mother af hacy (guard_first_false (by assumption) (by assumption)))
        (fun c hc => absurd hc (List.not_mem_nil c))
        _ (migrateLoop_nil mother true _).symm
    · exact sibCommit_acyclic s a b father mother bf am _ _ hwf hacy
        hak hbk hfk hmk hbfk hamk hFM (Or.inl rfl) (Or.inl rfl)
        (sibGuard_safe s father mother bf hacy (guard_first_false (by assumption) (by assumption)))
        (sibGuard_safe s father mother am hacy (guard_first_false (by assumption) (by assumption)))
        _ rfl
    · exact sibCommit_acyclic s a b father mother bf am _ _ hwf hacy
        hak hbk hfk hmk hbfk hamk hFM (Or.inr rfl) (Or.inl rfl)
        (fun c hc => absurd hc (List.not_mem_nil c))
        (sibGuard_safe s father mother am hacy (guard_first_false (by assumption) (by assumption)))
        _ (congrArg (migrateLoop mother true ((get s am).children))
            (migrateLoop_nil father false s).symm)
    · exact sibCommit_acyclic s a b father mother bf bm _ _ hwf hacy
        hak hbk hfk hmk hbfk hbmk hFM (Or.inl rfl) (Or.inl rfl)
        (sibGuard_safe s father mother bf hacy (guard_first_false (by assumption) (by assumption)))
        (sibGuard_safe s father mother bm hacy (guard_first_false (by assumption) (by assumption)))
        _ rfl
    · exact sibCommit_acyclic s a b father mother bf bm _ _ hwf hacy
        hak hbk hfk hmk hbfk hbmk hFM (Or.inr rfl) (Or.inl rfl)
        (fun c hc => absurd hc (List.not_mem_nil c))
        (sibGuard_safe s father mother bm hacy (guard_first_false (by assumption) (by assumption)))
        _ (congrArg (migrateLoop mother true ((get s bm).children))
            (migrateLoop_nil father false s).symm)
    · exact sibCommit_acyclic s a b father mother bf bm _ _ hwf hacy
        hak hbk hfk hmk hbfk hbmk hFM (Or.inl rfl) (Or.inr rfl)
        (sibGuard_safe s father mother bf hacy (guard_first_false (by assumption) (by assumption)))
        (fun c hc => absurd hc (List.not_mem_nil c))
        _ (migrateLoop_nil mother true _).symm
    · exact sibCommit_acyclic s a b father mother bf bm _ _ hwf hacy
        hak hbk hfk hmk hbfk hbmk hFM (Or.inr rfl) (Or.inr rfl)
        (fun c hc => absurd hc (List.not_mem_nil c))
        (fun c hc => absurd hc (List.not_mem_nil c))
        _ (by rw [migrateLoop_nil, migrateLoop_nil])

/-! ### Claim C2 -/

/-- The hole in `_assign_parental`'s cycle guard: `B` is a half-sibling of
`A` through the unoccupied mother `M`, and is proposed as `A`'s mother. -/
def exC2 : State :=
  [ ("M", { female := true, mtDna := none, yChrom := none
          , occupied := false, original := false, parents := none
          , children := ["A", "B"] })
  , ("FA", { female := false, mtDna := none, yChrom := none
           , occupied := true, original := true, parents := none
           , children := ["A"] })
  , ("FB", { female := false, mtDna := none, yChrom := none
           , occupied := true, original := true, parents := none
           , children := ["B"] })
  , ("A", { female := false, mtDna := none, yChrom := none
          , occupied := true, original := true
          , parents := some ("M", "FA"), children := [] })
  , ("B", { female := true, mtDna := none, yChrom := none
          , occupied := true, original := true
          , parents := some ("M", "FB"), children := [] }) ]

/-- C2 counterexample: on the well-formed acyclic state `exC2` the
parent-child transaction commits (`yield True`) while its mid state has a
directed cycle: the re-parent loop runs over `to_replace.children`, which
contains the incoming parent `B` itself, so `B` becomes its own mother and
its own child.  The cycle guard looks only for `parent` among each child's
strict descendants and misses this. -/
theorem claim_C2_counterexample :
    WF exC2 ∧ Acyclic exC2 ∧
    (assignParental exC2 "A" "B").1.ok = true ∧
    ¬ Acyclic (assignParental exC2 "A" "B").1.mid := by
  have hacy : Acyclic exC2 := by
    refine acyclic_of_measure exC2 (fun i => if i = "A" ∨ i = "B" then 0 else 1) ?_
    intro n c he
    have hn : n ∈ keys exC2 := mem_keys_of_edge he
    have hn5 : n = "M" ∨ n = "FA" ∨ n = "FB" ∨ n = "A" ∨ n = "B" := by
      simpa [exC2, keys] using hn
    rcases hn5 with rfl | rfl | rfl | rfl | rfl
    · have hc1 : c ∈ ["A", "B"] := by
        have h2 : (get exC2 "M").children = ["A", "B"] := rfl
        rw [edge, h2] at he; exact he
      rcases (by simpa using hc1 : c = "A" ∨ c = "B") with rfl | rfl <;> decide
    · have hc1 : c ∈ ["A"] := by
        have h2 : (get exC2 "FA").children = ["A"] := rfl
        rw [edge, h2] at he; exact he
      rcases (by simpa using hc1 : c = "A") with rfl; decide
    · have hc1 : c ∈ ["B"] := by
        have h2 : (get exC2 "FB").children = ["B"] := rfl
        rw [edge, h2] at he; exact he
      rcases (by simpa using hc1 : c = "B") with rfl; decide
    · have hc1 : c ∈ ([] : List Id) := by
        have h2 : (get exC2 "A").children = [] := rfl
        rw [edge, h2] at he; exact he
      exact absurd hc1 (List.not_mem_nil c)
    · have hc1 : c ∈ ([] : List Id) := by
        have h2 : (get exC2 "B").children = [] := rfl
        rw [edge, h2] at he; exact he
      exact absurd hc1 (List.not_mem_nil c)
  refine ⟨by unfold WF WFNodup WFClosed WFCoh WFCohR WFSex; decide, hacy, by decide, ?_⟩
  intro h
  exact h "B" ⟨"B", by decide, Relation.ReflTransGen.refl⟩

/-- C2 (corrected): on a well-formed acyclic state, a sibling transaction
always leaves its yield-time state acyclic, and a parent-child transaction
does so provided the proposed parent is not itself among the replaced
parent's children — without that proviso the invariant fails
(`claim_C2_counterexample`).  Rejected runs leave the state untouched, so
the statement covers both outcomes. -/
theorem claim_C2 (s : State) (c p a b : Id) (hwf : WF s) (hacy : Acyclic s)
    {cm cf pm pf am af bm bf : Id}
    (hc : (get s c).parents = some (cm, cf))
    (hp : (get s p).parents = some (pm, pf))
    (hpa : (get s a).parents = some (am, af))
    (hpb : (get s b).parents = some (bm, bf))
    (hnp : p ∉ (get s (if (get s p).female = true then cm else cf)).children) :
    Acyclic (assignParental s c p).1.mid ∧
    Acyclic (assignSibling s a b).1.mid :=
  ⟨assignParental_acyclic s c p hwf hacy hc hp hnp,
   assignSibling_acyclic s a b hwf hacy hpa hpb⟩

/-- Two unrelated sons with distinct parent pairs, for the witness. -/
def exC2b : State :=
  [ ("MA", { female := true, mtDna := none, yChrom := none
           , occupied := false, original := false, parents := none
           , children := ["A"] })
  , ("FA", { female := false, mtDna := none, yChrom := none
           , occupied := true, original := true, parents := none
           , children := ["A"] })
  , ("MB", { female := true, mtDna := none, yChrom := none
           , occupied := false, original := false, parents := none
           , children := ["B"] })
  , ("FB", { female := false, mtDna := none, yChrom := none
           , occupied := true, original := true, parents := none
           , children := ["B"] })
  , ("A", { female := false, mtDna := none, yChrom := none
          , occupied := true, original := true
          , parents := some ("MA", "FA"), children := [] })
  , ("B", { female := false, mtDna := none, yChrom := none
          , occupied := true, original := true
          , parents := some ("MB", "FB"), children := [] }) ]

theorem claim_C2_witness :
    (WF exC2b ∧ Acyclic exC2b ∧
     "B" ∉ (get exC2b (if (get exC2b "B").female = true then "MA" else "FA")).children) ∧
    Acyclic (assignParental exC2b "A" "B").1.mid ∧
    Acyclic (assignSibling exC2b "A" "B").1.mid := by
  have hacy : Acyclic exC2b := by
    refine acyclic_of_measure exC2b (fun i => if i = "A" ∨ i = "B" then 0 else 1) ?_
    intro n c he
    have hn : n ∈ keys exC2b := mem_keys_of_edge he
    have hn6 : n = "MA" ∨ n = "FA" ∨ n = "MB" ∨ n = "FB" ∨ n = "A" ∨ n = "B" := by
      simpa [exC2b, keys] using hn
    rcases hn6 with rfl | rfl | rfl | rfl | rfl | rfl
    · have hc1 : c ∈ ["A"] := by
        have h2 : (get exC2b "MA").children = ["A"] := rfl
        rw [edge, h2] at he; exact he
      rcases (by simpa using hc1 : c = "A") with rfl; decide
    · have hc1 : c ∈ ["A"] := by
        have h2 : (get exC2b "FA").children = ["A"] := rfl
        rw [edge, h2] at he; exact he
      rcases (by simpa using hc1 : c = "A") with rfl; decide
    · have hc1 : c ∈ ["B"] := by
        have h2 : (get exC2b "MB").children = ["B"] := rfl
        rw [edge, h2] at he; exact he
      rcases (by simpa using hc1 : c = "B") with rfl; decide
    · have hc1 : c ∈ ["B"] := by
        have h2 : (get exC2b "FB").children = ["B"] := rfl
        rw [edge, h2] at he; exact he
      rcases (by simpa using hc1 : c = "B") with rfl; decide
    · have hc1 : c ∈ ([] : List Id) := by
        have h2 : (get exC2b "A").children = [] := rfl
        rw [edge, h2] at he; exact he
      exact absurd hc1 (List.not_mem_nil c)
    · have hc1 : c ∈ ([] : List Id) := by
        have h2 : (get exC2b "B").children = [] := rfl
        rw [edge, h2] at he; exact he
      exact absurd hc1 (List.not_mem_nil c)
  have hwf : WF exC2b := by
    unfold WF WFNodup WFClosed WFCoh WFCohR WFSex
    decide
  exact ⟨⟨hwf, hacy, by decide⟩,
    claim_C2 exC2b "A" "B" "A" "B" hwf hacy rfl rfl rfl rfl (by decide)⟩

end Pedigree
